import Mathlib

/-!
Verification development for the magnetic-texture plotter repository.

The numeric code (numpy floats) is embedded over `ℚ`.  Square roots appear in
the source only inside comparisons against constant thresholds, so each such
comparison is embedded by its exact squared form through the helpers
`sqrtGtQ`, `sqrtDivGtQ` and `divSqrtLtQ`; lemmas over `ℝ` below prove that
these encodings coincide with the original square-root comparisons.
Fallible operations (out-of-range indexing, `np.amax` on an empty array,
integer division by zero) are embedded in the `Option` monad: `none` is a
raised Python exception.
-/

set_option allowUnsafeReducibility true

attribute [semireducible] Rat.mul Rat.add Rat.sub Rat.inv

namespace Plotter

/-- Three-component vector of rationals (embedding of a numpy float triple). -/
abbrev Vec3 := ℚ × ℚ × ℚ

/-- Dot product of two 3-vectors. -/
def dot3 (a b : Vec3) : ℚ := a.1 * b.1 + a.2.1 * b.2.1 + a.2.2 * b.2.2

/-- Cross product of two 3-vectors (`np.cross`). -/
def cross3 (a b : Vec3) : Vec3 :=
  (a.2.1 * b.2.2 - a.2.2 * b.2.1, a.2.2 * b.1 - a.1 * b.2.2, a.1 * b.2.1 - a.2.1 * b.1)

/-- Componentwise sum. -/
def add3 (a b : Vec3) : Vec3 := (a.1 + b.1, a.2.1 + b.2.1, a.2.2 + b.2.2)

/-- Componentwise negation. -/
def neg3 (a : Vec3) : Vec3 := (-a.1, -a.2.1, -a.2.2)

/-- Componentwise difference. -/
def sub3 (a b : Vec3) : Vec3 := (a.1 - b.1, a.2.1 - b.2.1, a.2.2 - b.2.2)

/-- The zero vector. -/
def zero3 : Vec3 := (0, 0, 0)

/-- Exact embedding of the comparison `np.sqrt a > t` (used with `a = ‖v‖²`,
`t ≥ 0`): equivalent to `t*t < a`. -/
def sqrtGtQ (a t : ℚ) : Bool := decide (t * t < a)

/-- Exact embedding of the comparison `np.sqrt a / n > t` for `n : ℕ`, `t ≥ 0`,
`a ≥ 0`: equivalent to `t*t*n*n < a` (for `n = 0` the source produces `nan`
and the comparison is false, matching `t*t*0 < a` being false there only when
`a = 0`; all call sites have `a = 0` when `n = 0`). -/
def sqrtDivGtQ (a : ℚ) (n : ℕ) (t : ℚ) : Bool := decide (t * t * ((n : ℚ) * n) < a)

/-- Exact embedding of the comparison `x / np.sqrt a < t` for `x ≥ 0`, `t > 0`,
`a > 0`: equivalent to `x*x < t*t*a`. -/
def divSqrtLtQ (x a t : ℚ) : Bool := decide (x * x < t * t * a)

/-- The static classification context (`Criteria` of `source/criteria.py`):
atom count, neighbor rows, sublattice labels and positions, bound by
`Criteria.set_values`. -/
structure Criteria where
  len : ℕ
  vecinos : List (List ℕ)
  sublattice : List ℤ
  positions : List Vec3
  deriving DecidableEq

/-- The freshly constructed `Criteria()` object (all attributes empty). -/
def Criteria.init : Criteria := ⟨0, [], [], []⟩

/-- Sum of the `z` components of a list of spins. -/
def zsum (l : List Vec3) : ℚ := (l.map fun s => s.2.2).sum

/-- Sum of the `x` components. -/
def xsum (l : List Vec3) : ℚ := (l.map fun s => s.1).sum

/-- Sum of the `y` components. -/
def ysum (l : List Vec3) : ℚ := (l.map fun s => s.2.1).sum

/-- Sum of `z`-components weighted by the sublattice labels. -/
def zsubsum (l : List Vec3) (sub : List ℤ) : ℚ :=
  ((l.zip sub).map fun p => p.1.2.2 * (p.2 : ℚ)).sum

/-- Sum of `x`-components weighted by the sublattice labels. -/
def xsubsum (l : List Vec3) (sub : List ℤ) : ℚ :=
  ((l.zip sub).map fun p => p.1.1 * (p.2 : ℚ)).sum

/-- Sum of `y`-components weighted by the sublattice labels. -/
def ysubsum (l : List Vec3) (sub : List ℤ) : ℚ :=
  ((l.zip sub).map fun p => p.1.2.1 * (p.2 : ℚ)).sum

/-- `Criteria.is_ferro_z_aligned` (criteria.py lines 54-70): the summed `z`
magnetization per atom exceeds 0.99 in absolute value.  `none` models the
IndexError raised when the spin array is shorter than `self.len`. -/
def isFerroZAligned (c : Criteria) (spins : List Vec3) : Option Bool :=
  if c.len ≤ spins.length then
    some (decide ((99:ℚ)/100 < |zsum (spins.take c.len)| / (c.len : ℚ)))
  else none

/-- `Criteria.is_antiferro_z_aligned` (criteria.py lines 73-89): the
sublattice-weighted `z` magnetization per atom exceeds 0.99 in absolute
value. -/
def isAntiferroZAligned (c : Criteria) (spins : List Vec3) : Option Bool :=
  if c.len ≤ spins.length ∧ c.len ≤ c.sublattice.length then
    some (decide ((99:ℚ)/100 <
      |zsubsum (spins.take c.len) (c.sublattice.take c.len)| / (c.len : ℚ)))
  else none

/-- `Criteria.is_ferro_xy_aligned` (criteria.py lines 92-113):
`mag_z = |Σ S.z|/n < 0.1` and `sqrt(mx² + my² + mag_z²)/n > 0.9`. -/
def isFerroXYAligned (c : Criteria) (spins : List Vec3) : Option Bool :=
  if c.len ≤ spins.length then
    some
      (decide (|zsum (spins.take c.len)| / (c.len : ℚ) < 1/10) &&
        sqrtDivGtQ
          (xsum (spins.take c.len) * xsum (spins.take c.len) +
            ysum (spins.take c.len) * ysum (spins.take c.len) +
            (|zsum (spins.take c.len)| / (c.len : ℚ)) *
              (|zsum (spins.take c.len)| / (c.len : ℚ)))
          c.len (9/10))
  else none

/-- `Criteria.is_antiferro_xy_aligned` (criteria.py lines 116-136): same with
every term weighted by the sublattice label; here `mag_z` is not taken in
absolute value before being squared, and the first test is `|mag_z| < 0.1`. -/
def isAntiferroXYAligned (c : Criteria) (spins : List Vec3) : Option Bool :=
  if c.len ≤ spins.length ∧ c.len ≤ c.sublattice.length then
    some
      (decide (|zsubsum (spins.take c.len) (c.sublattice.take c.len) / (c.len : ℚ)| < 1/10) &&
        sqrtDivGtQ
          (xsubsum (spins.take c.len) (c.sublattice.take c.len) *
            xsubsum (spins.take c.len) (c.sublattice.take c.len) +
            ysubsum (spins.take c.len) (c.sublattice.take c.len) *
              ysubsum (spins.take c.len) (c.sublattice.take c.len) +
            (zsubsum (spins.take c.len) (c.sublattice.take c.len) / (c.len : ℚ)) *
              (zsubsum (spins.take c.len) (c.sublattice.take c.len) / (c.len : ℚ)))
          c.len (9/10))
  else none

/-- `Criteria.is_xyz_aligned` (criteria.py lines 139-161): fraction of atoms
with `|S.z| > 0.95` (z-aligned if `> 0.7`) and fraction with `|S.z| < 0.05`
(xy-aligned if `> 0.8`). -/
def isXyzAligned (c : Criteria) (spins : List Vec3) : Option (Bool × Bool) :=
  if c.len ≤ spins.length then
    some
      (decide ((7:ℚ)/10 <
          ((spins.take c.len).countP (fun s => decide ((19:ℚ)/20 < |s.2.2|)) : ℚ) / (c.len : ℚ)),
        decide ((8:ℚ)/10 <
          ((spins.take c.len).countP (fun s => decide (|s.2.2| < (1:ℚ)/20)) : ℚ) / (c.len : ℚ)))
  else none

/-- Neighbor row of atom `n` (`self.vecinos[n]`), with an irrelevant default
used only under an in-range guard. -/
def nbrRow (c : Criteria) (n : ℕ) : List ℕ := (c.vecinos[n]?).getD []

/-- Spin of atom `m` (`spins[m]`), with an irrelevant default used only under
an in-range guard. -/
def spinAt (spins : List Vec3) (m : ℕ) : Vec3 := (spins[m]?).getD zero3

/-- Average dot product of atom `n`'s spin with its neighbors' spins
(the `m_value` of `Criteria.is_local_ferro_antiferro`). -/
def mValue (c : Criteria) (spins : List Vec3) (n : ℕ) : ℚ :=
  ((nbrRow c n).map (fun m => dot3 (spinAt spins n) (spinAt spins m))).sum /
    ((nbrRow c n).length : ℚ)

/-- `Criteria.is_local_ferro_antiferro` (criteria.py lines 164-194): counts
atoms whose `m_value` exceeds 0.99 (locally ferro) or is below -0.99 (locally
antiferro); each fraction is compared against 0.65.  `none` models the
IndexError on out-of-range accesses and the ZeroDivisionError of
`counter / self.len` when `self.len = 0`. -/
def isLocalFerroAntiferro (c : Criteria) (spins : List Vec3) : Option (Bool × Bool) :=
  if 0 < c.len ∧ c.len ≤ spins.length ∧ c.len ≤ c.vecinos.length ∧
      ∀ n < c.len, ∀ m ∈ nbrRow c n, m < spins.length then
    some
      (decide ((65:ℚ)/100 <
          (((List.range c.len).countP (fun n => decide ((99:ℚ)/100 < mValue c spins n))) : ℚ) /
            (c.len : ℚ)),
        decide ((65:ℚ)/100 <
          (((List.range c.len).countP (fun n => decide (mValue c spins n < -(99:ℚ)/100))) : ℚ) /
            (c.len : ℚ)))
  else none

/-- `Criteria.is_random` (criteria.py lines 228-248): `|Σ_n m_value(n)| < 0.01`.
An empty neighbor row makes the source value `nan` (comparison false), which
the first conjunct reproduces. -/
def isRandom (c : Criteria) (spins : List Vec3) : Option Bool :=
  if c.len ≤ spins.length ∧ c.len ≤ c.vecinos.length ∧
      ∀ n < c.len, ∀ m ∈ nbrRow c n, m < spins.length then
    some
      (decide (∀ n < c.len, nbrRow c n ≠ []) &&
        decide (|((List.range c.len).map (mValue c spins)).sum| < (1:ℚ)/100))
  else none

/-- The constant `spin_up` of `Criteria.domain_wall_ferro_z_align`. -/
def spinUpV : Vec3 := (0, 0, 1)

/-- The constant `spin_down` of `Criteria.domain_wall_ferro_z_align`. -/
def spinDownV : Vec3 := (0, 0, -1)

/-- Scan loop of `Criteria.domain_wall_ferro_z_align` (criteria.py lines
217-225): over the index list, for sublattice `+1` atoms update the running
minima of the dot products with `spin_up` and `spin_down`, returning `true`
as soon as both minima are below -0.9. -/
def dwAux (c : Criteria) (spins : List Vec3) :
    List ℕ → ℚ → ℚ → Option Bool
  | [], _, _ => some false
  | i :: rest, minUp, minDown => do
    let sub ← c.sublattice[i]?
    if sub = 1 then do
      let si ← spins[i]?
      let mu := min minUp (dot3 spinUpV si)
      let md := min minDown (dot3 spinDownV si)
      if mu < -(9:ℚ)/10 ∧ md < -(9:ℚ)/10 then some true
      else dwAux c spins rest mu md
    else dwAux c spins rest minUp minDown

/-- `Criteria.domain_wall_ferro_z_align` (criteria.py lines 197-225). -/
def domainWallFerroZAlign (c : Criteria) (spins : List Vec3) : Option Bool :=
  dwAux c spins (List.range c.len) 1 1

/-- Accumulator of the `is_conical` scan: `rotation_vec`, `traslation_vec`
and the rotating-pair counter `count`. -/
structure ScanState where
  rot : Vec3
  tras : Vec3
  count : ℕ
  deriving DecidableEq

/-- One directed neighbor pair `(i, j)` of the `is_conical` scan (criteria.py
lines 273-292): orient `cross(S_i, S_j)` against the running `rotation_vec`;
if its magnitude exceeds 0.01 accumulate it into `rotation_vec` and count the
pair, otherwise accumulate the (possibly flipped) displacement into
`traslation_vec`. -/
def conicalNbr (c : Criteria) (spins : List Vec3) (si pi' : Vec3)
    (st : ScanState) (j : ℕ) : Option ScanState := do
  let sj ← spins[j]?
  let cv := cross3 si sj
  let cv' := if dot3 cv st.rot < 0 then neg3 cv else cv
  if (1:ℚ)/10000 < dot3 cv cv then
    pure ⟨add3 st.rot cv', st.tras, st.count + 1⟩
  else do
    let pj ← c.positions[j]?
    let r := sub3 pi' pj
    let r' := if r.2.1 < 0 then neg3 r else r
    pure ⟨st.rot, add3 st.tras r', st.count⟩

/-- Full scan of `is_conical` over `enumerate(zip(spins, self.positions))`
(truncating to the shorter of the two arrays, as `zip` does) and, for each
atom, over its neighbor row. -/
def conicalScan (c : Criteria) (spins : List Vec3) : Option ScanState :=
  (List.range (min spins.length c.positions.length)).foldlM
    (fun st i => do
      let si := spinAt spins i
      let pi' := (c.positions[i]?).getD zero3
      let row ← c.vecinos[i]?
      row.foldlM (conicalNbr c spins si pi') st)
    ⟨zero3, zero3, 0⟩

/-- Absolute dot products `|S_i · r|` over the whole spin array. -/
def absDots (spins : List Vec3) (r : Vec3) : List ℚ :=
  spins.map fun s => |dot3 s r|

/-- `Criteria.is_conical` (criteria.py lines 251-310).  With `count = 0` the
mean and the max are infinite and both flags are false.  Otherwise the source
normalizes `rotation_vec` by `sqrt(R·R)` and compares
`mean = Σ|S_i·R̂| / count` and `max = max |S_i·R̂|` against 0.1; both
comparisons are embedded in squared form (`mean < 0.1` is
`Σ|S_i·R| / sqrt(count²·(R·R)) < 0.1`).  `np.amax` of an empty array raises,
hence the `none` when `spins` is empty with `count > 0`. -/
def isConical (c : Criteria) (spins : List Vec3) : Option (Bool × Bool) := do
  let st ← conicalScan c spins
  if st.count = 0 then pure (false, false)
  else do
    let m ← (absDots spins st.rot).max?
    pure
      (divSqrtLtQ (absDots spins st.rot).sum
        ((st.count : ℚ) * st.count * dot3 st.rot st.rot) (1/10),
       divSqrtLtQ m (dot3 st.rot st.rot) (1/10))

/-- Variant of `isConical` following the words of claim C1, which states that
the mean is the sum of `|S_i · R̂|` over all atoms divided by the number of
atoms: the only change is the divisor `c.len` instead of `count`. -/
def isConicalClaimC1 (c : Criteria) (spins : List Vec3) : Option (Bool × Bool) := do
  let st ← conicalScan c spins
  if st.count = 0 then pure (false, false)
  else do
    let m ← (absDots spins st.rot).max?
    pure
      (divSqrtLtQ (absDots spins st.rot).sum
        ((c.len : ℚ) * c.len * dot3 st.rot st.rot) (1/10),
       divSqrtLtQ m (dot3 st.rot st.rot) (1/10))

/-- Color cian of `data_ferro_and_align_with_domain_walls`. -/
def cCyan : Vec3 := (113/255, 255/255, 240/255)

/-- Color verde claro. -/
def cLightGreen : Vec3 := (194/255, 255/255, 113/255)

/-- Color lavanda. -/
def cLavanda : Vec3 := (177/255, 113/255, 255/255)

/-- Color rojo claro. -/
def cLightRed : Vec3 := (255/255, 113/255, 113/255)

/-- Color amarillo. -/
def cYellow : Vec3 := (255/255, 231/255, 113/255)

/-- Color verde. -/
def cGreen : Vec3 := (113/255, 255/255, 133/255)

/-- Color rosa. -/
def cPink : Vec3 := (255/255, 113/255, 180/255)

/-- Color celeste oscuro. -/
def cCeleste : Vec3 := (113/255, 193/255, 255/255)

/-- Domain-wall color (255,150,113)/255. -/
def cOrange : Vec3 := (255/255, 150/255, 113/255)

/-- Domain-wall color (50,194,78)/255. -/
def cGreen2 : Vec3 := (50/255, 194/255, 78/255)

/-- Color negro (paramagnetism). -/
def cBlack : Vec3 := (0, 0, 0)

/-- Color blanco (no criterion matched). -/
def cWhite : Vec3 := (255/255, 255/255, 255/255)

/-- The twelve possible outcomes of `data_ferro_and_align_with_domain_walls`. -/
def dwColors : List Vec3 :=
  [cCyan, cLightGreen, cLavanda, cLightRed, cYellow, cGreen, cPink, cCeleste,
    cOrange, cGreen2, cBlack, cWhite]

/-- The seven possible outcomes of `data_ferro_spiral_skyrmions`. -/
def spiralColors : List Vec3 :=
  [cYellow, cGreen, cPink, cCeleste, cLavanda, cLightRed, cWhite]

/-- First-match-wins rule chain of `data_ferro_spiral_skyrmions`
(criteria.py lines 420-447). -/
def spiralChain (fz az fxy axy gc lc : Bool) : Vec3 :=
  if fz then cYellow
  else if az then cGreen
  else if fxy then cPink
  else if axy then cCeleste
  else if gc then cLavanda
  else if lc then cLightRed
  else cWhite

/-- `Criteria.data_ferro_spiral_skyrmions` (criteria.py lines 395-449): all
predicates are evaluated first, then the ordered rule chain picks the color. -/
def dataFerroSpiralSkyrmions (c : Criteria) (spins : List Vec3) : Option Vec3 := do
  let fz ← isFerroZAligned c spins
  let fxy ← isFerroXYAligned c spins
  let az ← isAntiferroZAligned c spins
  let axy ← isAntiferroXYAligned c spins
  let (lc, gc) ← isConical c spins
  pure (spiralChain fz az fxy axy gc lc)

/-- First-match-wins rule chain of `data_ferro_and_align_with_domain_walls`
(criteria.py lines 346-390). -/
def dwChain (fl afl z xy dw fz fxy az axy rnd : Bool) : Vec3 :=
  if afl && !z && !xy then cCyan
  else if z && !fl && !afl then cLightGreen
  else if xy && !fl && !afl then cLavanda
  else if fl && !z && !xy then cLightRed
  else if fz then cYellow
  else if az then cGreen
  else if fxy then cPink
  else if axy then cCeleste
  else if fl && z && dw then cOrange
  else if afl && z && dw then cGreen2
  else if rnd then cBlack
  else cWhite

/-- `Criteria.data_ferro_and_align_with_domain_walls` (criteria.py lines
316-392): all predicates are evaluated first, then the ordered rule chain
picks the color. -/
def dataFerroAndAlignWithDomainWalls (c : Criteria) (spins : List Vec3) : Option Vec3 := do
  let (fl, afl) ← isLocalFerroAntiferro c spins
  let (z, xy) ← isXyzAligned c spins
  let dw ← domainWallFerroZAlign c spins
  let fz ← isFerroZAligned c spins
  let fxy ← isFerroXYAligned c spins
  let az ← isAntiferroZAligned c spins
  let axy ← isAntiferroXYAligned c spins
  let rnd ← isRandom c spins
  pure (dwChain fl afl z xy dw fz fxy az axy rnd)

/-- Inner loop of `Lattice.set_sublattice` (lattice.py lines 147-152) for one
dequeued node `u`: for each neighbor `v` in order, if `v` carries a nonzero
label then `label[u] := -label[v]` (each labeled neighbor overwrites);
otherwise, if `v` is unvisited, mark it and append it to the queue.  Returns
the updated labels and visited flags together with the enqueued nodes. -/
def processNode : List ℤ → List Bool → ℕ → List ℕ →
    Option (List ℤ × List Bool × List ℕ)
  | labels, checked, _, [] => some (labels, checked, [])
  | labels, checked, u, v :: rest => do
    let lv ← labels[v]?
    if lv ≠ 0 then processNode (labels.set u (-lv)) checked u rest
    else do
      let cv ← checked[v]?
      if cv then processNode labels checked u rest
      else
        (processNode labels (checked.set v true) u rest).map
          (fun r => (r.1, r.2.1, v :: r.2.2))

/-- Breadth-first loop of `Lattice.set_sublattice` (lattice.py lines 145-152).
The fuel argument is only a structural-termination device: every enqueue
flips an unvisited flag, so the measure `#unvisited + queue length` decreases
by one per iteration and the initial fuel `n + 2` is never exhausted. -/
def bfsAux (vecinos : List (List ℕ)) :
    ℕ → List ℤ → List Bool → List ℕ → Option (List ℤ)
  | 0, _, _, _ => none
  | _ + 1, labels, _, [] => some labels
  | fuel + 1, labels, checked, u :: rest => do
    let row ← vecinos[u]?
    let (l', c', adds) ← processNode labels checked u row
    bfsAux vecinos fuel l' c' (rest ++ adds)

/-- `Lattice.set_sublattice` (lattice.py lines 124-152), as a function of the
atom count, the neighbor rows and the current contents of the sublattice
array: seed `label[0] := 1`, mark atom 0 visited, and run the BFS.  `none`
models the IndexError of `self.sublattice[0] = 1` (resp. `checked[0] = True`)
on an empty array. -/
def setSublatticeFrom (n : ℕ) (vecinos : List (List ℕ)) (labels : List ℤ) :
    Option (List ℤ) :=
  if labels = [] then none
  else if n = 0 then none
  else bfsAux vecinos (n + 2) (labels.set 0 1) ((List.replicate n false).set 0 true) [0]

/-- Variant of the inner loop following the words of claim C2: only the first
neighbor of `u` that already carries a nonzero label determines `label[u]`
(later labeled neighbors are ignored); enqueueing is unchanged.  The flag
records whether `u` has already been labeled during this row. -/
def processNodeFirst : List ℤ → List Bool → ℕ → Bool → List ℕ →
    Option (List ℤ × List Bool × List ℕ)
  | labels, checked, _, _, [] => some (labels, checked, [])
  | labels, checked, u, done, v :: rest => do
    let lv ← labels[v]?
    if lv ≠ 0 then
      if done then processNodeFirst labels checked u true rest
      else processNodeFirst (labels.set u (-lv)) checked u true rest
    else do
      let cv ← checked[v]?
      if cv then processNodeFirst labels checked u done rest
      else
        (processNodeFirst labels (checked.set v true) u done rest).map
          (fun r => (r.1, r.2.1, v :: r.2.2))

/-- BFS loop of the claim-C2 variant. -/
def bfsFirstAux (vecinos : List (List ℕ)) :
    ℕ → List ℤ → List Bool → List ℕ → Option (List ℤ)
  | 0, _, _, _ => none
  | _ + 1, labels, _, [] => some labels
  | fuel + 1, labels, checked, u :: rest => do
    let row ← vecinos[u]?
    let (l', c', adds) ← processNodeFirst labels checked u false row
    bfsFirstAux vecinos fuel l' c' (rest ++ adds)

/-- Sublattice labeling as described by claim C2 (first labeled neighbor
wins), for comparison with `setSublatticeFrom`. -/
def setSublatticeFirstFrom (n : ℕ) (vecinos : List (List ℕ)) (labels : List ℤ) :
    Option (List ℤ) :=
  if labels = [] then none
  else if n = 0 then none
  else bfsFirstAux vecinos (n + 2) (labels.set 0 1) ((List.replicate n false).set 0 true) [0]

/-- The in-memory lattice model (`Lattice` of plot_spins/lattice.py), with
the defaults of `Lattice.__init__`. -/
structure Lattice where
  spins : List Vec3 := []
  position : List Vec3 := []
  vecinos : List (List ℕ) := []
  n_atoms : ℕ := 0
  sublattice : List ℤ := []
  deriving DecidableEq

/-- Parsed contents of a structure file: the header atom count and, per line,
the position triple and the 1-based neighbor indices (fields 4-6). -/
structure StructFileData where
  nAtoms : ℕ
  records : List (Vec3 × List ℕ)
  deriving DecidableEq

/-- `Lattice.load_files` (lattice.py lines 61-121) over parsed file
contents; `none` in either argument is a missing file (FileNotFoundError),
on which the method prints the error and returns, leaving the lattice at its
empty defaults.  Otherwise the arrays are preallocated to zeros of length
`n_atoms` and filled from the available records (missing trailing records
leave zeros, as in the source); neighbor indices are shifted from the
1-based file format.  The derived fields `dimensions` and `size` are not
used by any claim and are omitted. -/
def loadFiles (sf : Option StructFileData) (spf : Option (List Vec3)) : Lattice :=
  match sf, spf with
  | some s, some spinLines =>
    { n_atoms := s.nAtoms
      position := (List.range s.nAtoms).map fun i =>
        ((s.records[i]?).map Prod.fst).getD zero3
      vecinos := (List.range s.nAtoms).map fun i =>
        ((s.records[i]?).map (fun r => r.2.map (· - 1))).getD [0, 0, 0]
      spins := (List.range s.nAtoms).map fun i => (spinLines[i]?).getD zero3
      sublattice := List.replicate s.nAtoms 0 }
  | _, _ => {}

/-- The `PathManager` attributes needed by path resolution (field names
shortened from `dir_prefix`, `file_prefix`, `variable_1`, `variable_2`). -/
structure PathManager where
  dirPfx : String
  filePfx : String
  var1Name : String
  var2Name : String
  deriving DecidableEq

/-- `PathManager.var_to_str` for the format string of three fixed decimals:
renders a rational with exactly three digits after the decimal point,
rounding the scaled value to the nearest integer.  (The claims only use
values that are exact at three decimals, where every rounding mode of the
source's float formatting agrees.) -/
def formatFixed3 (q : ℚ) : String :=
  let n : ℤ := round (|q| * 1000)
  let ip := n / 1000
  let fp := (n % 1000).toNat
  let pad := if fp < 10 then "00" else if fp < 100 then "0" else ""
  (if q < 0 then "-" else "") ++ toString ip ++ "." ++ pad ++ toString fp

/-- `PathManager.get_file_path` (path_manager.py lines 51-75):
`dir_path = dir_prefix + folder + "/"` followed by
`file_prefix + var1_name + var_to_str(var1) + var2_name + var_to_str(var2)`. -/
def getFilePath (pm : PathManager) (folder : String) (var1 var2 : ℚ) : String :=
  (pm.dirPfx ++ folder ++ "/") ++
    (pm.filePfx ++ pm.var1Name ++ formatFixed3 var1 ++ pm.var2Name ++ formatFixed3 var2)

/-- One grid cell of `DataManager.set_data` (data_manager.py lines 40-56):
build a fresh `Lattice` from the fixed structure file and the cell's spin
file; if the classifier context is still unbound (`self.criteria.len == 0`)
run `set_sublattice` and bind the context from this lattice; then apply the
classification rule to the lattice's spins. -/
def processCell (sf : Option StructFileData) (spf : ℚ → ℚ → Option (List Vec3))
    (f : Criteria → List Vec3 → Option Vec3) (crit : Criteria) (v1 v2 : ℚ) :
    Option (Criteria × Vec3) := do
  let lat := loadFiles sf (spf v1 v2)
  let crit' ←
    if crit.len = 0 then do
      let sub ← setSublatticeFrom lat.n_atoms lat.vecinos lat.sublattice
      pure (⟨lat.n_atoms, lat.vecinos, sub, lat.position⟩ : Criteria)
    else pure crit
  let col ← f crit' lat.spins
  pure (crit', col)

/-- Inner loop of `DataManager.set_data` over the second parameter list,
threading the (possibly just bound) classifier context. -/
def runRow (sf : Option StructFileData) (spf : ℚ → ℚ → Option (List Vec3))
    (f : Criteria → List Vec3 → Option Vec3) (crit : Criteria) (v1 : ℚ) :
    List ℚ → Option (Criteria × List Vec3)
  | [] => some (crit, [])
  | v2 :: rest => do
    let (c1, col) ← processCell sf spf f crit v1 v2
    let (c2, cols) ← runRow sf spf f c1 v1 rest
    pure (c2, col :: cols)

/-- Outer loop of `DataManager.set_data` over the first parameter list. -/
def runGrid (sf : Option StructFileData) (spf : ℚ → ℚ → Option (List Vec3))
    (f : Criteria → List Vec3 → Option Vec3) (crit : Criteria) :
    List ℚ → List ℚ → Option (Criteria × List (List Vec3))
  | [], _ => some (crit, [])
  | v1 :: rest, v2s => do
    let (c1, row) ← runRow sf spf f crit v1 v2s
    let (c2, rows) ← runGrid sf spf f c1 rest v2s
    pure (c2, row :: rows)

/-- `DataManager.set_data` (data_manager.py lines 35-56): sweep the 2-D
parameter grid in row-major order starting from the freshly constructed
`Criteria()`; `none` is an uncaught exception that aborts the sweep. -/
def setData (sf : Option StructFileData) (spf : ℚ → ℚ → Option (List Vec3))
    (f : Criteria → List Vec3 → Option Vec3) (v1s v2s : List ℚ) :
    Option (List (List Vec3)) :=
  (runGrid sf spf f Criteria.init v1s v2s).map (·.2)

/-- Well-formed input for the classifiers: a bound context with a positive
atom count, all parallel arrays of matching length, and neighbor rows that
are nonempty with in-range entries. -/
def ValidInput (c : Criteria) (spins : List Vec3) : Prop :=
  0 < c.len ∧ spins.length = c.len ∧ c.positions.length = c.len ∧
    c.sublattice.length = c.len ∧ c.vecinos.length = c.len ∧
    ∀ row ∈ c.vecinos, row ≠ [] ∧ ∀ v ∈ row, v < c.len

instance (c : Criteria) (spins : List Vec3) : Decidable (ValidInput c spins) := by
  rw [ValidInput]
  infer_instance

/-- The sublist of a neighbor row whose members already carry a nonzero
label. -/
def labeledOf (labels : List ℤ) (row : List ℕ) : List ℕ :=
  row.filter fun v => decide ((labels[v]?).getD 0 ≠ 0)

/-- Number of false entries of a visited-flag array. -/
def countFalse (l : List Bool) : ℕ := l.countP fun b => !b

/-- Fold of a selective running minimum over an index list, used to
characterize the scan of `domain_wall_ferro_z_align`. -/
def minFold (g : ℕ → ℚ) (sel : ℕ → Bool) (is' : List ℕ) (init : ℚ) : ℚ :=
  is'.foldl (fun acc i => if sel i then min acc (g i) else acc) init


/-- The context and spin configuration used to refute claim C1: three atoms,
exactly one rotating directed pair (atom 0 to atom 1, all other pairs are
parallel self-pairs), so `count = 1` while `n_atoms = 3`. -/
def conicalCtxC1 : Criteria :=
  ⟨3, [[0,0,1],[1,1,1],[2,2,2]], [1,-1,1], [zero3, zero3, zero3]⟩

/-- Unit spins for the C1 counterexample: the rotation vector is `(0,0,1)`
and `Σ|S_i · R̂| = 7/25 = 0.28`, so dividing by `count = 1` gives 0.28 (not
locally conical) while dividing by `n_atoms = 3` gives about 0.093 (locally
conical). -/
def conicalSpinsC1 : List Vec3 := [(1,0,0), (0,1,0), (24/25, 0, 7/25)]

/-- The triangle lattice used to refute C2 and C8: an odd cycle on three
atoms.  When atom 2 is processed its neighbors 0 and 1 already carry the
labels +1 and -1. -/
def triVecinos : List (List ℕ) := [[1,2,2],[0,0,0],[0,1,1]]

/-- Explicit embedding of an integer sublattice label into the rationals
(Python multiplies the float spin components by the integer label). -/
def qcast (b : ℤ) : ℚ := (b : ℚ)

section Helpers

/-- Justification of `divSqrtLtQ` over the reals: for nonnegative numerator,
positive radicand and positive threshold the squared comparison is the
square-root comparison. -/
theorem divSqrtLtQ_iff_real (x a t : ℚ) (hx : (0:ℚ) ≤ x) (ha : (0:ℚ) < a)
    (ht : (0:ℚ) < t) :
    divSqrtLtQ x a t = true ↔ (x : ℝ) / Real.sqrt (a : ℝ) < (t : ℝ) := by
  have haR : (0:ℝ) < (a : ℝ) := by exact_mod_cast ha
  have hsq : (0:ℝ) < Real.sqrt (a : ℝ) := Real.sqrt_pos.mpr haR
  have hxR : (0:ℝ) ≤ (x : ℝ) := by exact_mod_cast hx
  have htR : (0:ℝ) < (t : ℝ) := by exact_mod_cast ht
  have hss : Real.sqrt (a:ℝ) * Real.sqrt (a:ℝ) = (a:ℝ) := Real.mul_self_sqrt haR.le
  have key : (x:ℝ) < (t:ℝ) * Real.sqrt (a:ℝ) ↔ (x:ℝ) * x < (t:ℝ) * t * a := by
    constructor
    · intro h
      nlinarith [Real.sqrt_nonneg (a:ℝ), hss, hxR, htR]
    · intro h
      by_contra hc
      push_neg at hc
      have h0 : (0:ℝ) ≤ (t:ℝ) * Real.sqrt (a:ℝ) := by positivity
      have hmul : (t:ℝ) * Real.sqrt (a:ℝ) * ((t:ℝ) * Real.sqrt (a:ℝ)) ≤ (x:ℝ) * x :=
        mul_le_mul hc hc h0 hxR
      nlinarith [hss]
  constructor
  · intro h
    have hq : x * x < t * t * a := of_decide_eq_true h
    have hqR : (x:ℝ) * x < (t:ℝ) * t * a := by exact_mod_cast hq
    rw [div_lt_iff₀ hsq]
    exact key.mpr hqR
  · intro h
    have h' : (x:ℝ) < (t:ℝ) * Real.sqrt (a:ℝ) := by
      rwa [div_lt_iff₀ hsq] at h
    have hq : x * x < t * t * a := by exact_mod_cast key.mp h'
    exact decide_eq_true hq

/-- Writing back the value already stored at an index leaves a list
unchanged. -/
theorem list_set_of_getElem? {α : Type _} :
    ∀ (l : List α) (i : ℕ) (a : α), l[i]? = some a → l.set i a = l
  | [], _, _, h => by simp at h
  | x :: xs, 0, a, h => by
    simp at h
    simp [h]
  | x :: xs, i + 1, a, h => by
    simp at h
    simp [list_set_of_getElem? xs i a h]

/-- A fold in the `Option` monad succeeds when every step does. -/
theorem foldlM_option_isSome {α β : Type _} (f : β → α → Option β) :
    ∀ (l : List α) (init : β), (∀ a ∈ l, ∀ st, (f st a).isSome) →
      (l.foldlM f init).isSome
  | [], init, _ => by simp
  | a :: l, init, h => by
    have h1 := h a (List.mem_cons_self a l) init
    obtain ⟨b, hb⟩ := Option.isSome_iff_exists.mp h1
    rw [List.foldlM_cons, hb]
    exact foldlM_option_isSome f l b fun x hx st => h x (List.mem_cons_of_mem a hx) st

/-- Counts of two pointwise-incompatible predicates sum to at most the
length. -/
theorem countP_disjoint_le {α : Type _} (p q : α → Bool) :
    ∀ l : List α, (∀ x ∈ l, ¬(p x = true ∧ q x = true)) →
      l.countP p + l.countP q ≤ l.length
  | [], _ => by simp
  | a :: l, h => by
    have ih := countP_disjoint_le p q l fun x hx => h x (List.mem_cons_of_mem a hx)
    have ha := h a (List.mem_cons_self a l)
    by_cases hp : p a = true <;> by_cases hq : q a = true <;>
      simp [List.countP_cons, hp, hq] at ha ⊢ <;> omega

/-- A nonempty list has a maximum. -/
theorem max?_isSome_of_ne_nil {α : Type _} [Max α] :
    ∀ l : List α, l ≠ [] → l.max?.isSome
  | [], h => absurd rfl h
  | _ :: _, _ => by rw [List.max?_cons']; rfl

/-- Sums of nonnegative rationals are nonnegative. -/
theorem list_sum_nonneg : ∀ l : List ℚ, (∀ x ∈ l, 0 ≤ x) → 0 ≤ l.sum
  | [], _ => le_refl 0
  | a :: l, h => by
    have := list_sum_nonneg l fun x hx => h x (List.mem_cons_of_mem a hx)
    have := h a (List.mem_cons_self a l)
    simp only [List.sum_cons]
    linarith

/-- The selective minimum fold never exceeds its initial value. -/
theorem minFold_le_init (g : ℕ → ℚ) (sel : ℕ → Bool) :
    ∀ (is' : List ℕ) (init : ℚ), minFold g sel is' init ≤ init
  | [], init => le_refl init
  | i :: is', init => by
    by_cases h : sel i = true
    · calc minFold g sel (i :: is') init = minFold g sel is' (min init (g i)) := by
            simp [minFold, h]
        _ ≤ min init (g i) := minFold_le_init g sel is' _
        _ ≤ init := min_le_left _ _
    · simpa [minFold, h] using minFold_le_init g sel is' init

/-- The selective minimum fold drops below a threshold iff the initial value
is below it or some selected index produces a value below it. -/
theorem minFold_lt_iff (g : ℕ → ℚ) (sel : ℕ → Bool) (t : ℚ) :
    ∀ (is' : List ℕ) (init : ℚ),
      minFold g sel is' init < t ↔
        init < t ∨ ∃ i ∈ is', sel i = true ∧ g i < t
  | [], init => by simp [minFold]
  | i :: is', init => by
    by_cases h : sel i = true
    · have ih := minFold_lt_iff g sel t is' (min init (g i))
      have hstep : minFold g sel (i :: is') init = minFold g sel is' (min init (g i)) := by
        simp [minFold, h]
      rw [hstep, ih]
      constructor
      · rintro (hlt | ⟨j, hj, hsel, hg⟩)
        · rcases min_lt_iff.mp hlt with h' | h'
          · exact Or.inl h'
          · exact Or.inr ⟨i, List.mem_cons_self _ _, h, h'⟩
        · exact Or.inr ⟨j, List.mem_cons_of_mem _ hj, hsel, hg⟩
      · rintro (hlt | ⟨j, hj, hsel, hg⟩)
        · exact Or.inl (min_lt_iff.mpr (Or.inl hlt))
        · rcases List.mem_cons.mp hj with rfl | hj'
          · exact Or.inl (min_lt_iff.mpr (Or.inr hg))
          · exact Or.inr ⟨j, hj', hsel, hg⟩
    · have ih := minFold_lt_iff g sel t is' init
      have hstep : minFold g sel (i :: is') init = minFold g sel is' init := by
        simp [minFold, h]
      rw [hstep, ih]
      constructor
      · rintro (hlt | ⟨j, hj, hsel, hg⟩)
        · exact Or.inl hlt
        · exact Or.inr ⟨j, List.mem_cons_of_mem _ hj, hsel, hg⟩
      · rintro (hlt | ⟨j, hj, hsel, hg⟩)
        · exact Or.inl hlt
        · rcases List.mem_cons.mp hj with hji | hj'
          · exact absurd (hji ▸ hsel) h
          · exact Or.inr ⟨j, hj', hsel, hg⟩

/-- Dot product with `spin_up` extracts the `z` component. -/
theorem dot3_spinUp (s : Vec3) : dot3 spinUpV s = s.2.2 := by
  simp [dot3, spinUpV]

/-- Dot product with `spin_down` extracts the negated `z` component. -/
theorem dot3_spinDown (s : Vec3) : dot3 spinDownV s = -s.2.2 := by
  simp [dot3, spinDownV]

end Helpers

section DomainWall

/-- The scan of `domain_wall_ferro_z_align` computes the selective running
minima: provided the joint stopping condition does not already hold, the
result is true iff both final minima are below -0.9. -/
theorem dwAux_char (c : Criteria) (spins : List Vec3) :
    ∀ (is' : List ℕ) (mu md : ℚ) (b : Bool),
      ¬(mu < -(9:ℚ)/10 ∧ md < -(9:ℚ)/10) →
      dwAux c spins is' mu md = some b →
      (b = true ↔
        minFold (fun i => dot3 spinUpV (spinAt spins i))
          (fun i => decide ((c.sublattice[i]?).getD 0 = 1)) is' mu < -(9:ℚ)/10 ∧
        minFold (fun i => dot3 spinDownV (spinAt spins i))
          (fun i => decide ((c.sublattice[i]?).getD 0 = 1)) is' md < -(9:ℚ)/10)
  | [], mu, md, b, hstop, h => by
    simp only [dwAux] at h
    cases h
    simp only [minFold, List.foldl_nil]
    simpa using hstop
  | i :: rest, mu, md, b, hstop, h => by
    simp only [dwAux] at h
    cases hsub : c.sublattice[i]? with
    | none => rw [hsub] at h; cases h
    | some sub =>
      rw [hsub] at h
      simp only [Option.bind_eq_bind, Option.some_bind] at h
      by_cases h1 : sub = 1
      · rw [if_pos h1] at h
        cases hsi : spins[i]? with
        | none => rw [hsi] at h; cases h
        | some si =>
          rw [hsi] at h
          simp only [Option.bind_eq_bind, Option.some_bind] at h
          have hsel : (fun i => decide ((c.sublattice[i]?).getD 0 = 1)) i = true := by
            simp [hsub, h1]
          have hat : spinAt spins i = si := by simp [spinAt, hsi]
          have hfoldUp : minFold (fun j => dot3 spinUpV (spinAt spins j))
              (fun j => decide ((c.sublattice[j]?).getD 0 = 1)) (i :: rest) mu =
              minFold (fun j => dot3 spinUpV (spinAt spins j))
                (fun j => decide ((c.sublattice[j]?).getD 0 = 1)) rest
                (min mu (dot3 spinUpV si)) := by
            simp [minFold, hat, hsub, h1]
          have hfoldDown : minFold (fun j => dot3 spinDownV (spinAt spins j))
              (fun j => decide ((c.sublattice[j]?).getD 0 = 1)) (i :: rest) md =
              minFold (fun j => dot3 spinDownV (spinAt spins j))
                (fun j => decide ((c.sublattice[j]?).getD 0 = 1)) rest
                (min md (dot3 spinDownV si)) := by
            simp [minFold, hat, hsub, h1]
          rw [hfoldUp, hfoldDown]
          by_cases hfire : min mu (dot3 spinUpV si) < -(9:ℚ)/10 ∧
              min md (dot3 spinDownV si) < -(9:ℚ)/10
          · rw [if_pos hfire] at h
            cases h
            simp only [true_iff]
            exact ⟨lt_of_le_of_lt (minFold_le_init _ _ _ _) hfire.1,
              lt_of_le_of_lt (minFold_le_init _ _ _ _) hfire.2⟩
          · rw [if_neg hfire] at h
            exact dwAux_char c spins rest _ _ b hfire h
      · rw [if_neg h1] at h
        have hsel : (fun j => decide ((c.sublattice[j]?).getD 0 = 1)) i = false := by
          simp [hsub, h1]
        have hfoldUp : minFold (fun j => dot3 spinUpV (spinAt spins j))
            (fun j => decide ((c.sublattice[j]?).getD 0 = 1)) (i :: rest) mu =
            minFold (fun j => dot3 spinUpV (spinAt spins j))
              (fun j => decide ((c.sublattice[j]?).getD 0 = 1)) rest mu := by
          simp [minFold, hsub, h1]
        have hfoldDown : minFold (fun j => dot3 spinDownV (spinAt spins j))
            (fun j => decide ((c.sublattice[j]?).getD 0 = 1)) (i :: rest) md =
            minFold (fun j => dot3 spinDownV (spinAt spins j))
              (fun j => decide ((c.sublattice[j]?).getD 0 = 1)) rest md := by
          simp [minFold, hsub, h1]
        rw [hfoldUp, hfoldDown]
        exact dwAux_char c spins rest _ _ b hstop h

end DomainWall

/-- C10: `domain_wall_ferro_z_align(spins)` returns true iff there are two
atoms `i`, `j` with sublattice label +1 such that `S_i.z > 0.9` and
`S_j.z < -0.9`; the right-hand side is independent of the scan order, and
atoms with label -1 or 0 do not appear in it. -/
theorem domainWall_iff_two_extreme_atoms (c : Criteria) (spins : List Vec3) (b : Bool)
    (h : domainWallFerroZAlign c spins = some b) :
    b = true ↔ ∃ i < c.len, ∃ j < c.len,
      (c.sublattice[i]?).getD 0 = 1 ∧ (c.sublattice[j]?).getD 0 = 1 ∧
      (9:ℚ)/10 < (spinAt spins i).2.2 ∧ (spinAt spins j).2.2 < -(9:ℚ)/10 := by
  have hstop : ¬((1:ℚ) < -(9:ℚ)/10 ∧ (1:ℚ) < -(9:ℚ)/10) := by norm_num
  have hchar := dwAux_char c spins (List.range c.len) 1 1 b hstop h
  rw [hchar, minFold_lt_iff, minFold_lt_iff]
  have h19 : ¬((1:ℚ) < -(9:ℚ)/10) := by norm_num
  constructor
  · rintro ⟨hup, hdown⟩
    rcases hup with h' | ⟨j, hj, hjsel, hjg⟩
    · exact absurd h' h19
    rcases hdown with h' | ⟨i, hi, hisel, hig⟩
    · exact absurd h' h19
    refine ⟨i, List.mem_range.mp hi, j, List.mem_range.mp hj, of_decide_eq_true hisel,
      of_decide_eq_true hjsel, ?_, ?_⟩
    · rw [dot3_spinDown] at hig
      linarith
    · rwa [dot3_spinUp] at hjg
  · rintro ⟨i, hi, j, hj, hisub, hjsub, hiz, hjz⟩
    constructor
    · refine Or.inr ⟨j, List.mem_range.mpr hj, decide_eq_true hjsub, ?_⟩
      rwa [dot3_spinUp]
    · refine Or.inr ⟨i, List.mem_range.mpr hi, decide_eq_true hisub, ?_⟩
      rw [dot3_spinDown]
      linarith

/-- Witness for C10: on a two-atom lattice with both labels +1 and spins
`(0,0,1)` and `(0,0,-1)` the scan returns true and the existential holds. -/
theorem domainWall_iff_two_extreme_atoms_witness :
    domainWallFerroZAlign ⟨2, [[1,1,1],[0,0,0]], [1,1], [zero3, zero3]⟩
        [(0,0,1), (0,0,-1)] = some true ∧
      (∃ i < 2, ∃ j < 2,
        ((([1,1] : List ℤ))[i]?).getD 0 = 1 ∧ ((([1,1] : List ℤ))[j]?).getD 0 = 1 ∧
        (9:ℚ)/10 < (spinAt [(0,0,1), (0,0,-1)] i).2.2 ∧
        (spinAt [(0,0,1), (0,0,-1)] j).2.2 < -(9:ℚ)/10) :=
  ⟨by decide,
    (domainWall_iff_two_extreme_atoms ⟨2, [[1,1,1],[0,0,0]], [1,1], [zero3, zero3]⟩
      [(0,0,1), (0,0,-1)] true (by decide)).mp rfl⟩

/-- C9: `is_xyz_aligned` never returns `(true, true)`: the z-aligned
fraction (threshold 0.7) and the xy-aligned fraction (threshold 0.8) count
disjoint atom sets, so they cannot both be exceeded. -/
theorem isXyzAligned_not_both (c : Criteria) (spins : List Vec3) (z xy : Bool)
    (h : isXyzAligned c spins = some (z, xy)) : ¬(z = true ∧ xy = true) := by
  rintro ⟨hz, hxy⟩
  rw [isXyzAligned] at h
  by_cases hg : c.len ≤ spins.length
  · rw [if_pos hg] at h
    have h' := Option.some.inj h
    have h1 := congrArg Prod.fst h'
    have h2 := congrArg Prod.snd h'
    simp only [hz] at h1
    simp only [hxy] at h2
    have hz' : (7:ℚ)/10 <
        (((spins.take c.len).countP (fun s => decide ((19:ℚ)/20 < |s.2.2|))) : ℚ) /
          (c.len : ℚ) := of_decide_eq_true h1
    have hxy' : (8:ℚ)/10 <
        (((spins.take c.len).countP (fun s => decide (|s.2.2| < (1:ℚ)/20))) : ℚ) /
          (c.len : ℚ) := of_decide_eq_true h2
    set a := (spins.take c.len).countP (fun s => decide ((19:ℚ)/20 < |s.2.2|)) with ha
    set b := (spins.take c.len).countP (fun s => decide (|s.2.2| < (1:ℚ)/20)) with hb
    rcases Nat.eq_zero_or_pos c.len with h0 | h0
    · rw [h0] at hz'
      norm_num at hz'
    have hlen0 : (0:ℚ) < (c.len : ℚ) := by exact_mod_cast h0
    have hab : a + b ≤ c.len := by
      have hdis : ∀ s ∈ spins.take c.len,
          ¬((fun s : Vec3 => decide ((19:ℚ)/20 < |s.2.2|)) s = true ∧
            (fun s : Vec3 => decide (|s.2.2| < (1:ℚ)/20)) s = true) := by
        rintro s _ ⟨hp, hq⟩
        have hp' := of_decide_eq_true hp
        have hq' := of_decide_eq_true hq
        linarith
      calc a + b ≤ (spins.take c.len).length := countP_disjoint_le _ _ _ hdis
        _ ≤ c.len := by
            rw [List.length_take]
            exact min_le_left _ _
    have haq : (7:ℚ)/10 * (c.len : ℚ) < (a : ℚ) := by
      rw [lt_div_iff₀ hlen0] at hz'
      linarith
    have hbq : (8:ℚ)/10 * (c.len : ℚ) < (b : ℚ) := by
      rw [lt_div_iff₀ hlen0] at hxy'
      linarith
    have habq : (a : ℚ) + (b : ℚ) ≤ (c.len : ℚ) := by exact_mod_cast hab
    linarith
  · rw [if_neg hg] at h
    cases h

/-- Witness for C9 on a one-atom context. -/
theorem isXyzAligned_not_both_witness :
    isXyzAligned ⟨1, [[0,0,0]], [1], [zero3]⟩ [(0,0,1)] = some (true, false) ∧
      ¬(true = true ∧ false = true) :=
  ⟨by decide,
    isXyzAligned_not_both ⟨1, [[0,0,0]], [1], [zero3]⟩ [(0,0,1)] true false (by decide)⟩

/-- Counterexample to C5: with `dir_prefix = "x/"` the source composes
`dir_prefix + folder + "/"` before the file name, so even with the empty
folder the resolved path is `"x//out_DM1.200_K-0.500"`, not the claimed
`"x/out_DM1.200_K-0.500"`. -/
theorem getFilePath_counterexample :
    getFilePath ⟨"x/", "out", "_DM", "_K"⟩ "" (6/5) (-(1/2)) ≠
      "x/out_DM1.200_K-0.500" := by decide

/-- C5 (amended): the resolved path is
`dir_prefix ++ folder ++ "/" ++ file_prefix ++ tag1 ++ formatted var1 ++
tag2 ++ formatted var2`; with the claimed inputs and the empty folder used
by the sweep it is exactly `"x//out_DM1.200_K-0.500"`. -/
theorem getFilePath_composition :
    (∀ (pm : PathManager) (folder : String) (v1 v2 : ℚ),
      getFilePath pm folder v1 v2 =
        pm.dirPfx ++ folder ++ "/" ++
          (pm.filePfx ++ pm.var1Name ++ formatFixed3 v1 ++ pm.var2Name ++ formatFixed3 v2)) ∧
    getFilePath ⟨"x/", "out", "_DM", "_K"⟩ "" (6/5) (-(1/2)) = "x//out_DM1.200_K-0.500" :=
  ⟨fun _ _ _ _ => rfl, by decide⟩

/-- C3 (code evaluation at the failing input): a 1×2 sweep whose second
cell's spin file is missing.  `load_files` catches the `FileNotFoundError`
and leaves the lattice empty, but `set_data` then classifies the empty spin
array against the context bound from the first cell, and the classifier's
`spins[n]` access raises, aborting the sweep instead of completing it. -/
theorem setData_missing_spin_file_aborts :
    setData (some ⟨1, [((0,0,0), [1,1,1])]⟩)
      (fun _ v2 => if v2 = 0 then some [(0,0,1)] else none)
      dataFerroSpiralSkyrmions [0] [0, 1] = none := by decide

/-- Counterexample to C1: on `conicalCtxC1`/`conicalSpinsC1` the source's
`is_conical` divides the summed `|S_i · R̂|` by the rotating-pair counter
`count`, returning `(false, false)`, while the claim's mean over the number
of atoms would return `(true, false)`. -/
theorem isConical_mean_counterexample :
    isConical conicalCtxC1 conicalSpinsC1 = some (false, false) ∧
      isConicalClaimC1 conicalCtxC1 conicalSpinsC1 = some (true, false) ∧
      ((false, false) : Bool × Bool) ≠ (true, false) :=
  ⟨by decide, by decide, by decide⟩

/-- Counterexample to C2: on the triangle, the source labels atom 2 with the
negation of its last labeled neighbor (atom 1, label -1), yielding
`[1,-1,1]`, whereas the claimed first-neighbor rule yields `[1,-1,-1]`. -/
theorem setSublattice_first_neighbor_counterexample :
    setSublatticeFrom 3 triVecinos [0,0,0] = some [1,-1,1] ∧
      setSublatticeFirstFrom 3 triVecinos [0,0,0] = some [1,-1,-1] ∧
      (([1,-1,1] : List ℤ)) ≠ [1,-1,-1] :=
  ⟨by decide, by decide, by decide⟩

/-- Counterexample to C8: on the (non-bipartite) triangle, the first run of
`set_sublattice` produces `[1,-1,1]`, but a second run starting from those
labels rewrites atom 0 from its last labeled neighbor and returns
`[-1,-1,1]`: the labeling is not idempotent for every lattice. -/
theorem setSublattice_not_idempotent_counterexample :
    setSublatticeFrom 3 triVecinos [0,0,0] = some [1,-1,1] ∧
      setSublatticeFrom 3 triVecinos [1,-1,1] = some [-1,-1,1] ∧
      (([-1,-1,1] : List ℤ)) ≠ [1,-1,1] :=
  ⟨by decide, by decide, by decide⟩

section ProcessNode

/-- Behavior of the per-node inner loop relative to a reference label array
`labels`: the working array `cur` differs from `labels` at most at the node
`u` being processed, and after the loop the label of `u` is the negation of
the label of the last labeled neighbor (if any). -/
theorem processNode_last (labels : List ℤ) (u : ℕ) :
    ∀ (row : List ℕ) (cur : List ℤ) (checked : List Bool),
      cur.length = labels.length →
      (∀ v ∈ row, v < labels.length) → (∀ v ∈ row, v < checked.length) →
      u ∉ row →
      (∀ v, v ≠ u → cur[v]? = labels[v]?) →
      ∃ l' c' adds, processNode cur checked u row = some (l', c', adds) ∧
        (labeledOf labels row = [] → l' = cur) ∧
        ∀ vl, (labeledOf labels row).getLast? = some vl →
          l' = cur.set u (-((labels[vl]?).getD 0))
  | [], cur, checked, _, _, _, _, _ => by
    refine ⟨cur, checked, [], rfl, fun _ => rfl, ?_⟩
    intro vl hvl
    simp [labeledOf] at hvl
  | v :: rest, cur, checked, hlen, hbl, hbc, hu, hrel => by
    have hvne : v ≠ u := fun h => hu (h ▸ List.mem_cons_self v rest)
    have hurest : u ∉ rest := fun h => hu (List.mem_cons_of_mem v h)
    have hvlab : v < labels.length := hbl v (List.mem_cons_self v rest)
    have hcurv : cur[v]? = labels[v]? := hrel v hvne
    obtain ⟨lv, hlv⟩ : ∃ x, labels[v]? = some x := ⟨_, List.getElem?_eq_getElem hvlab⟩
    have hgetD : (labels[v]?).getD 0 = lv := by rw [hlv]; rfl
    by_cases hlv0 : lv = 0
    · -- the neighbor is unlabeled: `u` is untouched, maybe enqueue `v`
      have hcons : labeledOf labels (v :: rest) = labeledOf labels rest := by
        simp [labeledOf, hgetD, hlv0]
      have hvchk : v < checked.length := hbc v (List.mem_cons_self v rest)
      obtain ⟨cv, hcv⟩ : ∃ x, checked[v]? = some x := ⟨_, List.getElem?_eq_getElem hvchk⟩
      by_cases hcvb : cv = true
      · obtain ⟨l', c', adds, hpn, hnil, hlast⟩ :=
          processNode_last labels u rest cur checked hlen
            (fun w hw => hbl w (List.mem_cons_of_mem v hw))
            (fun w hw => hbc w (List.mem_cons_of_mem v hw)) hurest hrel
        refine ⟨l', c', adds, ?_, ?_, ?_⟩
        · simp only [processNode, Option.bind_eq_bind, hcurv, hlv, Option.some_bind]
          rw [if_neg (by simpa using hlv0), hcv]
          simp only [Option.some_bind]
          rw [if_pos hcvb]
          exact hpn
        · rw [hcons]; exact hnil
        · rw [hcons]; exact hlast
      · obtain ⟨l', c', adds, hpn, hnil, hlast⟩ :=
          processNode_last labels u rest cur (checked.set v true)
            hlen (fun w hw => hbl w (List.mem_cons_of_mem v hw))
            (fun w hw => by
              rw [List.length_set]
              exact hbc w (List.mem_cons_of_mem v hw)) hurest hrel
        refine ⟨l', c', v :: adds, ?_, ?_, ?_⟩
        · simp only [processNode, Option.bind_eq_bind, hcurv, hlv, Option.some_bind]
          rw [if_neg (by simpa using hlv0), hcv]
          simp only [Option.some_bind]
          rw [if_neg hcvb, hpn]
          rfl
        · rw [hcons]; exact hnil
        · rw [hcons]; exact hlast
    · -- the neighbor is labeled: `label[u]` is overwritten with its negation
      have hcons : labeledOf labels (v :: rest) = v :: labeledOf labels rest := by
        simp [labeledOf, hgetD, hlv0]
      obtain ⟨l', c', adds, hpn, hnil, hlast⟩ :=
        processNode_last labels u rest (cur.set u (-lv)) checked
          (by rw [List.length_set]; exact hlen)
          (fun w hw => hbl w (List.mem_cons_of_mem v hw))
          (fun w hw => hbc w (List.mem_cons_of_mem v hw)) hurest
          (fun w hw => by
            rw [List.getElem?_set_ne (fun h => hw h.symm)]
            exact hrel w hw)
      refine ⟨l', c', adds, ?_, ?_, ?_⟩
      · simp only [processNode, Option.bind_eq_bind, hcurv, hlv, Option.some_bind]
        rw [if_pos (by simpa using hlv0)]
        exact hpn
      · rw [hcons]
        intro habs
        cases habs
      · rw [hcons]
        intro vl hvl
        cases hlr : labeledOf labels rest with
        | nil =>
          rw [hlr] at hvl
          have : vl = v := by
            rw [List.getLast?_cons] at hvl
            simp at hvl
            exact hvl.symm
          subst this
          rw [hnil hlr, hgetD]
        | cons w ws =>
          rw [hlr] at hvl
          rw [List.getLast?_cons_cons] at hvl
          have := hlast vl (by rw [hlr]; exact hvl)
          rw [this, List.set_set]

end ProcessNode

/-- C2 (amended): when the atom `u` processed from the BFS frontier has
several neighbors that already carry a nonzero label, each of them
overwrites `label[u]` in turn, so `u`'s label ends up as the negation of the
LAST such neighbor's label in neighbor-array order (for a node that is not
its own neighbor); with no labeled neighbor the label is unchanged. -/
theorem processNode_last_labeled_wins (labels : List ℤ) (checked : List Bool)
    (u : ℕ) (row : List ℕ)
    (hbl : ∀ v ∈ row, v < labels.length) (hbc : ∀ v ∈ row, v < checked.length)
    (hu : u ∉ row) :
    ∃ l' c' adds, processNode labels checked u row = some (l', c', adds) ∧
      (labeledOf labels row = [] → l' = labels) ∧
      ∀ vl, (labeledOf labels row).getLast? = some vl →
        l' = labels.set u (-((labels[vl]?).getD 0)) :=
  processNode_last labels u row labels checked rfl hbl hbc hu fun _ _ => rfl

/-- Witness for C2's amended theorem: processing atom 2 with labels
`[1,-1,0]` over the neighbor row `[0,1,1]`. -/
theorem processNode_last_labeled_wins_witness :
    (∀ v ∈ ([0,1,1] : List ℕ), v < (([1,-1,0] : List ℤ)).length) ∧
      (∀ v ∈ ([0,1,1] : List ℕ), v < (([true,true,true] : List Bool)).length) ∧
      (2 : ℕ) ∉ ([0,1,1] : List ℕ) ∧
      ∃ l' c' adds,
        processNode [1,-1,0] [true,true,true] 2 [0,1,1] = some (l', c', adds) ∧
        (labeledOf [1,-1,0] [0,1,1] = [] → l' = [1,-1,0]) ∧
        ∀ vl, (labeledOf [1,-1,0] [0,1,1]).getLast? = some vl →
          l' = (([1,-1,0] : List ℤ)).set 2 (-(((([1,-1,0] : List ℤ))[vl]?).getD 0)) :=
  ⟨by decide, by decide, by decide,
    processNode_last_labeled_wins [1,-1,0] [true,true,true] 2 [0,1,1]
      (by decide) (by decide) (by decide)⟩

section BfsInvariant

/-- All flags of a fresh visited array are false. -/
theorem countFalse_replicate : ∀ n : ℕ, countFalse (List.replicate n false) = n
  | 0 => rfl
  | n + 1 => by
    have ih := countFalse_replicate n
    rw [List.replicate_succ]
    unfold countFalse at ih ⊢
    rw [List.countP_cons, ih]
    simp

/-- Marking an unvisited node visited decreases the unvisited count by one. -/
theorem countFalse_set_true :
    ∀ (l : List Bool) (v : ℕ), l[v]? = some false →
      countFalse (l.set v true) + 1 = countFalse l
  | [], v, h => by simp at h
  | b :: l, 0, h => by
    simp at h
    simp [countFalse, List.countP_cons, h]
  | b :: l, v + 1, h => by
    simp at h
    have := countFalse_set_true l v h
    simp only [List.set_cons_succ, countFalse, List.countP_cons] at *
    omega

/-- When every labeled-neighbor write is the identity on the label array
(the array is a proper coloring), the per-node loop leaves the labels
unchanged, marks each enqueued node visited, and enqueues only in-range
nodes. -/
theorem processNode_fixed (labels : List ℤ) (u : ℕ) :
    ∀ (row : List ℕ) (checked : List Bool),
      (∀ v ∈ row, v < labels.length ∧ v < checked.length) →
      (∀ v ∈ row, ∀ lv, labels[v]? = some lv → lv ≠ 0 → labels.set u (-lv) = labels) →
      ∃ c' adds, processNode labels checked u row = some (labels, c', adds) ∧
        c'.length = checked.length ∧
        countFalse c' + adds.length ≤ countFalse checked ∧
        ∀ a ∈ adds, a < checked.length
  | [], checked, _, _ => ⟨checked, [], rfl, rfl, le_refl _, by simp⟩
  | v :: rest, checked, hb, hfix => by
    have hvl : v < labels.length := (hb v (List.mem_cons_self v rest)).1
    have hvc : v < checked.length := (hb v (List.mem_cons_self v rest)).2
    obtain ⟨lv, hlv⟩ : ∃ x, labels[v]? = some x := ⟨_, List.getElem?_eq_getElem hvl⟩
    by_cases hlv0 : lv = 0
    · obtain ⟨cv, hcv⟩ : ∃ x, checked[v]? = some x := ⟨_, List.getElem?_eq_getElem hvc⟩
      by_cases hcvb : cv = true
      · obtain ⟨c', adds, hpn, hclen, hm, hin⟩ :=
          processNode_fixed labels u rest checked
            (fun w hw => hb w (List.mem_cons_of_mem v hw))
            (fun w hw => hfix w (List.mem_cons_of_mem v hw))
        refine ⟨c', adds, ?_, hclen, hm, hin⟩
        simp only [processNode, Option.bind_eq_bind, hlv, Option.some_bind]
        rw [if_neg (by simpa using hlv0), hcv]
        simp only [Option.some_bind]
        rw [if_pos hcvb]
        exact hpn
      · obtain ⟨c', adds, hpn, hclen, hm, hin⟩ :=
          processNode_fixed labels u rest (checked.set v true)
            (fun w hw => ⟨(hb w (List.mem_cons_of_mem v hw)).1, by
              rw [List.length_set]
              exact (hb w (List.mem_cons_of_mem v hw)).2⟩)
            (fun w hw => hfix w (List.mem_cons_of_mem v hw))
        have hfalse : checked[v]? = some false := by
          rw [hcv]
          simp [Bool.eq_false_iff.mpr hcvb]
        have hcount := countFalse_set_true checked v hfalse
        refine ⟨c', v :: adds, ?_, ?_, ?_, ?_⟩
        · simp only [processNode, Option.bind_eq_bind, hlv, Option.some_bind]
          rw [if_neg (by simpa using hlv0), hcv]
          simp only [Option.some_bind]
          rw [if_neg hcvb, hpn]
          rfl
        · rw [hclen, List.length_set]
        · rw [List.length_set] at *
          simp only [List.length_cons]
          omega
        · intro a ha
          rcases List.mem_cons.mp ha with rfl | ha'
          · exact hvc
          · have := hin a ha'
            rwa [List.length_set] at this
    · have hset : labels.set u (-lv) = labels :=
        hfix v (List.mem_cons_self v rest) lv hlv hlv0
      obtain ⟨c', adds, hpn, hclen, hm, hin⟩ :=
        processNode_fixed labels u rest checked
          (fun w hw => hb w (List.mem_cons_of_mem v hw))
          (fun w hw => hfix w (List.mem_cons_of_mem v hw))
      refine ⟨c', adds, ?_, hclen, hm, hin⟩
      simp only [processNode, Option.bind_eq_bind, hlv, Option.some_bind]
      rw [if_pos (by simpa using hlv0), hset]
      exact hpn

/-- On a proper coloring the whole BFS is the identity on the label array:
with enough fuel (one unit more than the number of unvisited nodes plus the
queue length, which is the loop's decreasing measure) it returns the labels
unchanged. -/
theorem bfsAux_fixed (n : ℕ) (vecinos : List (List ℕ)) (labels : List ℤ)
    (hvlen : vecinos.length = n) (hllen : labels.length = n)
    (hcol : ∀ u < n, ∀ v ∈ (vecinos[u]?).getD [], v < n ∧
      (∀ lv, labels[v]? = some lv → lv ≠ 0 → labels.set u (-lv) = labels)) :
    ∀ (fuel : ℕ) (checked : List Bool) (queue : List ℕ),
      checked.length = n → (∀ u ∈ queue, u < n) →
      countFalse checked + queue.length < fuel →
      bfsAux vecinos fuel labels checked queue = some labels
  | 0, _, _, _, _, hm => absurd hm (by omega)
  | fuel + 1, checked, [], _, _, _ => rfl
  | fuel + 1, checked, u :: rest, hclen, hq, hm => by
    have hun : u < n := hq u (List.mem_cons_self u rest)
    obtain ⟨row, hrowv⟩ : ∃ x, vecinos[u]? = some x :=
      ⟨_, List.getElem?_eq_getElem (hvlen ▸ hun)⟩
    have hrow := hcol u hun
    rw [hrowv] at hrow
    simp only [Option.getD_some] at hrow
    obtain ⟨c', adds, hpn, hclen', hmeasure, hin⟩ :=
      processNode_fixed labels u row checked
        (fun v hv => ⟨hllen ▸ (hrow v hv).1, hclen ▸ (hrow v hv).1⟩)
        (fun v hv => (hrow v hv).2)
    have hrec := bfsAux_fixed n vecinos labels hvlen hllen hcol fuel c' (rest ++ adds)
      (hclen'.trans hclen)
      (by
        intro w hw
        rcases List.mem_append.mp hw with hw' | hw'
        · exact hq w (List.mem_cons_of_mem u hw')
        · exact hclen ▸ hin w hw')
      (by
        rw [List.length_append]
        simp only [List.length_cons] at hm
        omega)
    simp only [bfsAux, Option.bind_eq_bind, hrowv, Option.some_bind, hpn]
    exact hrec

end BfsInvariant

/-- C8 (amended): `set_sublattice` is idempotent on every lattice whose
first run produced a proper two-coloring, that is, whenever the first run's
labels give atom 0 the label +1 and give every labeled neighbor of every
atom the negation of that atom's label.  (On a non-bipartite lattice the
first run can violate this and a second run then changes the labels, as the
counterexample shows.) -/
theorem setSublattice_idempotent_on_bipartition
    (n : ℕ) (vecinos : List (List ℕ)) (labels : List ℤ)
    (hrun : setSublatticeFrom n vecinos (List.replicate n 0) = some labels)
    (hvlen : vecinos.length = n) (hllen : labels.length = n)
    (h0 : labels[0]? = some 1)
    (hcol : ∀ u < n, ∀ v ∈ (vecinos[u]?).getD [], v < n ∧
      ((labels[v]?).getD 0 ≠ 0 → (labels[v]?).getD 0 = -((labels[u]?).getD 0))) :
    setSublatticeFrom n vecinos labels = some labels := by
  have hlpos : 0 < labels.length := by
    by_contra hc
    push_neg at hc
    interval_cases hl : labels.length
    · rw [List.length_eq_zero] at hl
      rw [hl] at h0
      cases h0
  have hnpos : 0 < n := hllen ▸ hlpos
  have hlne : labels ≠ [] := by
    intro hc
    rw [hc] at hlpos
    cases hlpos
  rw [setSublatticeFrom, if_neg hlne, if_neg (Nat.pos_iff_ne_zero.mp hnpos),
    list_set_of_getElem? labels 0 1 h0]
  have hcol' : ∀ u < n, ∀ v ∈ (vecinos[u]?).getD [], v < n ∧
      (∀ lv, labels[v]? = some lv → lv ≠ 0 → labels.set u (-lv) = labels) := by
    intro u hu v hv
    refine ⟨(hcol u hu v hv).1, ?_⟩
    intro lv hlv hlv0
    have hgd : (labels[v]?).getD 0 = lv := by rw [hlv]; rfl
    have := (hcol u hu v hv).2 (hgd ▸ hlv0)
    rw [hgd] at this
    have hul : u < labels.length := hllen ▸ hu
    obtain ⟨lu, hu'⟩ : ∃ x, labels[u]? = some x := ⟨_, List.getElem?_eq_getElem hul⟩
    have hgdu : (labels[u]?).getD 0 = lu := by rw [hu']; rfl
    rw [hgdu] at this
    have : -lv = lu := by omega
    rw [this]
    exact list_set_of_getElem? labels u _ hu'
  have hchk : ((List.replicate n false).set 0 true).length = n := by
    rw [List.length_set, List.length_replicate]
  have hcf : countFalse ((List.replicate n false).set 0 true) + 1 = n := by
    have h00 : (List.replicate n false)[0]? = some false := by
      rw [List.getElem?_eq_getElem (by simpa using hnpos)]
      simp
    rw [countFalse_set_true _ _ h00, countFalse_replicate]
  exact bfsAux_fixed n vecinos labels hvlen hllen hcol' (n + 2)
    ((List.replicate n false).set 0 true) [0] hchk
    (fun u hu => by
      rcases List.mem_cons.mp hu with rfl | h'
      · exact hnpos
      · cases h')
    (by simp only [List.length_cons, List.length_nil]; omega)

/-- Witness for C8's amended theorem: the two-atom path lattice, whose first
run yields the proper coloring `[1,-1]`; the second run returns it
unchanged. -/
theorem setSublattice_idempotent_witness :
    setSublatticeFrom 2 [[1,1,1],[0,0,0]] (List.replicate 2 0) = some [1,-1] ∧
      (∀ u < 2, ∀ v ∈ (((([[1,1,1],[0,0,0]] : List (List ℕ)))[u]?).getD []), v < 2 ∧
        (((([1,-1] : List ℤ))[v]?).getD 0 ≠ 0 →
          ((([1,-1] : List ℤ))[v]?).getD 0 = -(((([1,-1] : List ℤ))[u]?).getD 0))) ∧
      setSublatticeFrom 2 [[1,1,1],[0,0,0]] [1,-1] = some [1,-1] :=
  ⟨by decide, by decide,
    setSublattice_idempotent_on_bipartition 2 [[1,1,1],[0,0,0]] [1,-1]
      (by decide) (by decide) (by decide) (by decide) (by decide)⟩

section FerroNeel

/-- Zipping a replicated list against a list pairs the constant with each
element. -/
theorem zip_replicate_self {α β : Type _} (v : α) :
    ∀ l : List β, (List.replicate l.length v).zip l = l.map fun b => (v, b)
  | [] => rfl
  | a :: l => by
    rw [List.length_cons, List.replicate_succ, List.zip_cons_cons, zip_replicate_self v l,
      List.map_cons]

/-- Zipping a mapped list against the original pairs each element with its
image. -/
theorem map_zip_self {α β : Type _} (g : α → β) :
    ∀ l : List α, (l.map g).zip l = l.map fun b => (g b, b)
  | [] => rfl
  | a :: l => by
    rw [List.map_cons, List.zip_cons_cons, map_zip_self g l, List.map_cons]

/-- Sum of squares of a ±1-valued integer list is its length. -/
theorem sum_sq_pm : ∀ l : List ℤ, (∀ x ∈ l, x = 1 ∨ x = -1) →
    ((l.map fun b => qcast b * qcast b).sum) = l.length
  | [], _ => by simp
  | a :: l, h => by
    have ih := sum_sq_pm l fun x hx => h x (List.mem_cons_of_mem a hx)
    rw [List.map_cons, List.sum_cons, ih, List.length_cons]
    rcases h a (List.mem_cons_self a l) with ha | ha <;> subst ha <;>
      norm_num [qcast, add_comm]

/-- The z-magnetization of the saturated configuration is the atom count. -/
theorem zsum_replicate (m : ℕ) :
    zsum (List.replicate m ((0:ℚ),(0:ℚ),(1:ℚ))) = (m : ℚ) := by
  unfold zsum
  rw [List.map_replicate, List.sum_replicate]
  simp

/-- The sublattice-weighted z-magnetization of the saturated configuration
is the sum of the labels. -/
theorem zsubsum_replicate (sub : List ℤ) :
    zsubsum (List.replicate sub.length ((0:ℚ),(0:ℚ),(1:ℚ))) sub =
      (sub.map qcast).sum := by
  unfold zsubsum
  rw [zip_replicate_self, List.map_map]
  refine congrArg List.sum (List.map_congr_left ?_)
  intro b _
  simp [Function.comp, qcast]

/-- The z-magnetization of the Néel configuration is the sum of the
labels. -/
theorem zsum_neel (sub : List ℤ) :
    zsum (sub.map fun b => ((0:ℚ),(0:ℚ), qcast b)) = (sub.map qcast).sum := by
  unfold zsum
  rw [List.map_map]
  refine congrArg List.sum (List.map_congr_left ?_)
  intro b _
  simp [Function.comp, qcast]

/-- The sublattice-weighted z-magnetization of the Néel configuration is
the sum of squared labels. -/
theorem zsubsum_neel (sub : List ℤ) :
    zsubsum (sub.map fun b => ((0:ℚ),(0:ℚ), qcast b)) sub =
      (sub.map fun b => qcast b * qcast b).sum := by
  unfold zsubsum
  rw [map_zip_self, List.map_map]
  refine congrArg List.sum (List.map_congr_left ?_)
  intro b _
  simp [Function.comp, qcast]

end FerroNeel

/-- C7: on a balanced ±1 sublattice, the saturated ferromagnetic
configuration `S_i = (0,0,1)` satisfies `is_ferro_z_aligned` but not
`is_antiferro_z_aligned`, and the Néel configuration
`S_i = sublattice_i * (0,0,1)` satisfies `is_antiferro_z_aligned` but not
`is_ferro_z_aligned`. -/
theorem ferro_neel_classification (c : Criteria)
    (hsub : c.sublattice.length = c.len) (hpos : 0 < c.len)
    (hpm : ∀ l ∈ c.sublattice, l = 1 ∨ l = -1)
    (hbal : |(c.sublattice.map qcast).sum| ≤ (99:ℚ)/100 * (c.len : ℚ)) :
    isFerroZAligned c (List.replicate c.len ((0:ℚ),(0:ℚ),(1:ℚ))) = some true ∧
    isAntiferroZAligned c (List.replicate c.len ((0:ℚ),(0:ℚ),(1:ℚ))) = some false ∧
    isAntiferroZAligned c (c.sublattice.map fun b => ((0:ℚ),(0:ℚ), qcast b)) = some true ∧
    isFerroZAligned c (c.sublattice.map fun b => ((0:ℚ),(0:ℚ), qcast b)) = some false := by
  have hlq : (0:ℚ) < (c.len : ℚ) := by exact_mod_cast hpos
  have hlne : (c.len : ℚ) ≠ 0 := ne_of_gt hlq
  have hnotbal : ¬((99:ℚ)/100 < |(c.sublattice.map qcast).sum| / (c.len : ℚ)) := by
    intro hcon
    rw [lt_div_iff₀ hlq] at hcon
    linarith
  refine ⟨?_, ?_, ?_, ?_⟩
  · rw [isFerroZAligned, if_pos (by simp)]
    rw [List.take_of_length_le (by simp), zsum_replicate, abs_of_pos hlq, div_self hlne]
    norm_num
  · rw [isAntiferroZAligned, if_pos (by constructor <;> simp [hsub])]
    rw [List.take_of_length_le (by simp), List.take_of_length_le (le_of_eq hsub)]
    rw [show c.len = c.sublattice.length from hsub.symm, zsubsum_replicate]
    simp only [Option.some.injEq]
    rw [decide_eq_false_iff_not]
    rw [hsub]
    exact hnotbal
  · rw [isAntiferroZAligned, if_pos (by constructor <;> simp [hsub])]
    rw [List.take_of_length_le (by simp [hsub]), List.take_of_length_le (le_of_eq hsub)]
    rw [zsubsum_neel, sum_sq_pm c.sublattice hpm, hsub, abs_of_pos hlq, div_self hlne]
    norm_num
  · rw [isFerroZAligned, if_pos (by simp [hsub])]
    rw [List.take_of_length_le (by simp [hsub]), zsum_neel]
    simp only [Option.some.injEq]
    rw [decide_eq_false_iff_not]
    exact hnotbal

/-- Witness for C7 on the two-atom balanced lattice with labels `[1,-1]`. -/
theorem ferro_neel_classification_witness :
    ((([1,-1] : List ℤ)).length = 2 ∧ (0:ℕ) < 2 ∧
      (∀ l ∈ ([1,-1] : List ℤ), l = 1 ∨ l = -1) ∧
      |((([1,-1] : List ℤ)).map qcast).sum| ≤ (99:ℚ)/100 * ((2:ℕ) : ℚ)) ∧
    isFerroZAligned ⟨2, [[1,1,1],[0,0,0]], [1,-1], [zero3, zero3]⟩
        (List.replicate 2 ((0:ℚ),(0:ℚ),(1:ℚ))) = some true ∧
    isAntiferroZAligned ⟨2, [[1,1,1],[0,0,0]], [1,-1], [zero3, zero3]⟩
        (List.replicate 2 ((0:ℚ),(0:ℚ),(1:ℚ))) = some false ∧
    isAntiferroZAligned ⟨2, [[1,1,1],[0,0,0]], [1,-1], [zero3, zero3]⟩
        ((([1,-1] : List ℤ)).map fun b => ((0:ℚ),(0:ℚ), qcast b)) = some true ∧
    isFerroZAligned ⟨2, [[1,1,1],[0,0,0]], [1,-1], [zero3, zero3]⟩
        ((([1,-1] : List ℤ)).map fun b => ((0:ℚ),(0:ℚ), qcast b)) = some false :=
  ⟨⟨by decide, by decide, by decide, by norm_num [qcast]⟩,
    ferro_neel_classification ⟨2, [[1,1,1],[0,0,0]], [1,-1], [zero3, zero3]⟩
      (by decide) (by decide) (by decide) (by norm_num [qcast])⟩

section Totality

/-- Neighbor rows obtained by index are rows of the context. -/
theorem nbrRow_sub (c : Criteria) (spins : List Vec3) (hv : ValidInput c spins) :
    ∀ n < c.len, ∀ m ∈ nbrRow c n, m < spins.length := by
  intro n hn m hm
  obtain ⟨_, hsp, _, _, hvec, hrows⟩ := hv
  have hn' : n < c.vecinos.length := hvec ▸ hn
  obtain ⟨row, hrow⟩ : ∃ x, c.vecinos[n]? = some x := ⟨_, List.getElem?_eq_getElem hn'⟩
  rw [nbrRow, hrow] at hm
  simp only [Option.getD_some] at hm
  have hmem : row ∈ c.vecinos := List.getElem?_mem hrow
  have := (hrows _ hmem).2 m hm
  omega

/-- `is_ferro_z_aligned` succeeds on well-formed input. -/
theorem isFerroZAligned_isSome (c : Criteria) (spins : List Vec3)
    (h : c.len ≤ spins.length) : (isFerroZAligned c spins).isSome := by
  rw [isFerroZAligned, if_pos h]; rfl

/-- `is_antiferro_z_aligned` succeeds on well-formed input. -/
theorem isAntiferroZAligned_isSome (c : Criteria) (spins : List Vec3)
    (h : c.len ≤ spins.length) (h' : c.len ≤ c.sublattice.length) :
    (isAntiferroZAligned c spins).isSome := by
  rw [isAntiferroZAligned, if_pos ⟨h, h'⟩]; rfl

/-- `is_ferro_xy_aligned` succeeds on well-formed input. -/
theorem isFerroXYAligned_isSome (c : Criteria) (spins : List Vec3)
    (h : c.len ≤ spins.length) : (isFerroXYAligned c spins).isSome := by
  rw [isFerroXYAligned, if_pos h]; rfl

/-- `is_antiferro_xy_aligned` succeeds on well-formed input. -/
theorem isAntiferroXYAligned_isSome (c : Criteria) (spins : List Vec3)
    (h : c.len ≤ spins.length) (h' : c.len ≤ c.sublattice.length) :
    (isAntiferroXYAligned c spins).isSome := by
  rw [isAntiferroXYAligned, if_pos ⟨h, h'⟩]; rfl

/-- `is_xyz_aligned` succeeds on well-formed input. -/
theorem isXyzAligned_isSome (c : Criteria) (spins : List Vec3)
    (h : c.len ≤ spins.length) : (isXyzAligned c spins).isSome := by
  rw [isXyzAligned, if_pos h]; rfl

/-- `is_local_ferro_antiferro` succeeds on well-formed input. -/
theorem isLocalFerroAntiferro_isSome (c : Criteria) (spins : List Vec3)
    (h0 : 0 < c.len) (h1 : c.len ≤ spins.length) (h2 : c.len ≤ c.vecinos.length)
    (h3 : ∀ n < c.len, ∀ m ∈ nbrRow c n, m < spins.length) :
    (isLocalFerroAntiferro c spins).isSome := by
  rw [isLocalFerroAntiferro, if_pos ⟨h0, h1, h2, h3⟩]; rfl

/-- `is_random` succeeds on well-formed input. -/
theorem isRandom_isSome (c : Criteria) (spins : List Vec3)
    (h1 : c.len ≤ spins.length) (h2 : c.len ≤ c.vecinos.length)
    (h3 : ∀ n < c.len, ∀ m ∈ nbrRow c n, m < spins.length) :
    (isRandom c spins).isSome := by
  rw [isRandom, if_pos ⟨h1, h2, h3⟩]; rfl

/-- The domain-wall scan succeeds when every scanned index is within both
arrays. -/
theorem dwAux_isSome (c : Criteria) (spins : List Vec3) :
    ∀ (is' : List ℕ) (mu md : ℚ),
      (∀ i ∈ is', i < c.sublattice.length ∧ i < spins.length) →
      (dwAux c spins is' mu md).isSome
  | [], _, _, _ => rfl
  | i :: rest, mu, md, hb => by
    have hi := hb i (List.mem_cons_self i rest)
    obtain ⟨sub, hsub⟩ : ∃ x, c.sublattice[i]? = some x :=
      ⟨_, List.getElem?_eq_getElem hi.1⟩
    obtain ⟨si, hsi⟩ : ∃ x, spins[i]? = some x := ⟨_, List.getElem?_eq_getElem hi.2⟩
    have hrest : ∀ j ∈ rest, j < c.sublattice.length ∧ j < spins.length :=
      fun j hj => hb j (List.mem_cons_of_mem i hj)
    simp only [dwAux, Option.bind_eq_bind, hsub, Option.some_bind]
    by_cases h1 : sub = 1
    · rw [if_pos h1, hsi]
      simp only [Option.some_bind]
      by_cases hfire : min mu (dot3 spinUpV si) < -(9:ℚ)/10 ∧
          min md (dot3 spinDownV si) < -(9:ℚ)/10
      · rw [if_pos hfire]; rfl
      · rw [if_neg hfire]
        exact dwAux_isSome c spins rest _ _ hrest
    · rw [if_neg h1]
      exact dwAux_isSome c spins rest _ _ hrest

/-- `domain_wall_ferro_z_align` succeeds on well-formed input. -/
theorem domainWall_isSome (c : Criteria) (spins : List Vec3)
    (h1 : c.len ≤ spins.length) (h2 : c.len ≤ c.sublattice.length) :
    (domainWallFerroZAlign c spins).isSome := by
  rw [domainWallFerroZAlign]
  exact dwAux_isSome c spins (List.range c.len) 1 1 fun i hi =>
    ⟨by have := List.mem_range.mp hi; omega, by have := List.mem_range.mp hi; omega⟩

/-- The conical scan succeeds on well-formed input. -/
theorem conicalScan_isSome (c : Criteria) (spins : List Vec3)
    (hv : ValidInput c spins) : (conicalScan c spins).isSome := by
  obtain ⟨hpos, hsp, hpo, hsl, hvec, hrows⟩ := hv
  rw [conicalScan]
  apply foldlM_option_isSome
  intro i hi st
  have hi' : i < c.len := by
    have := List.mem_range.mp hi
    omega
  obtain ⟨row, hrow⟩ : ∃ x, c.vecinos[i]? = some x :=
    ⟨_, List.getElem?_eq_getElem (hvec ▸ hi')⟩
  have hmem : row ∈ c.vecinos := List.getElem?_mem hrow
  simp only [Option.bind_eq_bind, hrow, Option.some_bind]
  apply foldlM_option_isSome
  intro j hj st'
  have hjlen : j < c.len := (hrows _ hmem).2 j hj
  obtain ⟨sj, hsj⟩ : ∃ x, spins[j]? = some x :=
    ⟨_, List.getElem?_eq_getElem (show j < spins.length by omega)⟩
  obtain ⟨pj, hpj⟩ : ∃ x, c.positions[j]? = some x :=
    ⟨_, List.getElem?_eq_getElem (show j < c.positions.length by omega)⟩
  rw [conicalNbr]
  simp only [Option.bind_eq_bind, hsj, Option.some_bind]
  split
  · rfl
  · rw [hpj]
    simp only [Option.some_bind]
    rfl

/-- `is_conical` succeeds on well-formed input. -/
theorem isConical_isSome (c : Criteria) (spins : List Vec3)
    (hv : ValidInput c spins) : (isConical c spins).isSome := by
  obtain ⟨st, hst⟩ := Option.isSome_iff_exists.mp (conicalScan_isSome c spins hv)
  rw [isConical]
  simp only [Option.bind_eq_bind, hst, Option.some_bind]
  by_cases hc : st.count = 0
  · rw [if_pos hc]; rfl
  · rw [if_neg hc]
    have hne : absDots spins st.rot ≠ [] := by
      obtain ⟨hpos, hsp, _, _, _, _⟩ := hv
      intro habs
      rw [absDots] at habs
      have : spins = [] := List.map_eq_nil_iff.mp habs
      rw [this] at hsp
      simp at hsp
      omega
    obtain ⟨m, hm⟩ := Option.isSome_iff_exists.mp (max?_isSome_of_ne_nil _ hne)
    simp only [hm, Option.some_bind]
    rfl

/-- The spiral rule chain only produces its seven enumerated colors. -/
theorem spiralChain_mem (fz az fxy axy gc lc : Bool) :
    spiralChain fz az fxy axy gc lc ∈ spiralColors := by
  cases fz <;> cases az <;> cases fxy <;> cases axy <;> cases gc <;> cases lc <;>
    simp [spiralChain, spiralColors]

/-- The domain-wall rule chain only produces its twelve enumerated colors. -/
theorem dwChain_mem (fl afl z xy dw fz fxy az axy rnd : Bool) :
    dwChain fl afl z xy dw fz fxy az axy rnd ∈ dwColors := by
  revert fl afl z xy dw fz fxy az axy rnd
  decide

end Totality

/-- C4: on every well-formed spin array and valid bound context both
composite rule tables return exactly one of their enumerated colors and
never an error; for `data_ferro_spiral_skyrmions` the color is determined by
the first matching rule of the fixed order ferro-Z, antiferro-Z, ferro-XY,
antiferro-XY, globally-conical, locally-conical, with white as the fallback
(the `spiralChain` of the conclusion). -/
theorem rule_tables_total (c : Criteria) (spins : List Vec3)
    (hv : ValidInput c spins) :
    (∃ col, dataFerroAndAlignWithDomainWalls c spins = some col ∧ col ∈ dwColors) ∧
    (∃ fz az fxy axy lc gc,
      isFerroZAligned c spins = some fz ∧
      isAntiferroZAligned c spins = some az ∧
      isFerroXYAligned c spins = some fxy ∧
      isAntiferroXYAligned c spins = some axy ∧
      isConical c spins = some (lc, gc) ∧
      dataFerroSpiralSkyrmions c spins = some (spiralChain fz az fxy axy gc lc) ∧
      spiralChain fz az fxy axy gc lc ∈ spiralColors) := by
  have hcopy := hv
  obtain ⟨hpos, hsp, hpo, hsl, hvec, hrows⟩ := hcopy
  have hsple : c.len ≤ spins.length := le_of_eq hsp.symm
  have hslle : c.len ≤ c.sublattice.length := le_of_eq hsl.symm
  have hvecle : c.len ≤ c.vecinos.length := le_of_eq hvec.symm
  have hnbr := nbrRow_sub c spins hv
  obtain ⟨fz, hfz⟩ := Option.isSome_iff_exists.mp (isFerroZAligned_isSome c spins hsple)
  obtain ⟨az, haz⟩ :=
    Option.isSome_iff_exists.mp (isAntiferroZAligned_isSome c spins hsple hslle)
  obtain ⟨fxy, hfxy⟩ := Option.isSome_iff_exists.mp (isFerroXYAligned_isSome c spins hsple)
  obtain ⟨axy, haxy⟩ :=
    Option.isSome_iff_exists.mp (isAntiferroXYAligned_isSome c spins hsple hslle)
  obtain ⟨⟨lc, gc⟩, hcc⟩ := Option.isSome_iff_exists.mp (isConical_isSome c spins hv)
  obtain ⟨⟨fl, afl⟩, hfl⟩ := Option.isSome_iff_exists.mp
    (isLocalFerroAntiferro_isSome c spins hpos hsple hvecle hnbr)
  obtain ⟨⟨z, xy⟩, hz⟩ := Option.isSome_iff_exists.mp (isXyzAligned_isSome c spins hsple)
  obtain ⟨dw, hdw⟩ := Option.isSome_iff_exists.mp (domainWall_isSome c spins hsple hslle)
  obtain ⟨rnd, hrnd⟩ := Option.isSome_iff_exists.mp (isRandom_isSome c spins hsple hvecle hnbr)
  constructor
  · refine ⟨dwChain fl afl z xy dw fz fxy az axy rnd, ?_, dwChain_mem _ _ _ _ _ _ _ _ _ _⟩
    rw [dataFerroAndAlignWithDomainWalls]
    simp only [Option.bind_eq_bind, hfl, hz, hdw, hfz, hfxy, haz, haxy, hrnd,
      Option.some_bind]
    rfl
  · refine ⟨fz, az, fxy, axy, lc, gc, hfz, haz, hfxy, haxy, hcc, ?_,
      spiralChain_mem fz az fxy axy gc lc⟩
    rw [dataFerroSpiralSkyrmions]
    simp only [Option.bind_eq_bind, hfz, hfxy, haz, haxy, hcc, Option.some_bind]
    rfl

/-- Witness for C4 on a one-atom context with spin `(0,0,1)`. -/
theorem rule_tables_total_witness :
    ValidInput ⟨1, [[0,0,0]], [1], [zero3]⟩ [(0,0,1)] ∧
    (∃ col, dataFerroAndAlignWithDomainWalls ⟨1, [[0,0,0]], [1], [zero3]⟩ [(0,0,1)] =
        some col ∧ col ∈ dwColors) ∧
    (∃ fz az fxy axy lc gc,
      isFerroZAligned ⟨1, [[0,0,0]], [1], [zero3]⟩ [(0,0,1)] = some fz ∧
      isAntiferroZAligned ⟨1, [[0,0,0]], [1], [zero3]⟩ [(0,0,1)] = some az ∧
      isFerroXYAligned ⟨1, [[0,0,0]], [1], [zero3]⟩ [(0,0,1)] = some fxy ∧
      isAntiferroXYAligned ⟨1, [[0,0,0]], [1], [zero3]⟩ [(0,0,1)] = some axy ∧
      isConical ⟨1, [[0,0,0]], [1], [zero3]⟩ [(0,0,1)] = some (lc, gc) ∧
      dataFerroSpiralSkyrmions ⟨1, [[0,0,0]], [1], [zero3]⟩ [(0,0,1)] =
        some (spiralChain fz az fxy axy gc lc) ∧
      spiralChain fz az fxy axy gc lc ∈ spiralColors) :=
  ⟨by decide, rule_tables_total ⟨1, [[0,0,0]], [1], [zero3]⟩ [(0,0,1)] (by decide)⟩

/-- C1 (amended): after the scan, `is_conical` normalizes the rotation
vector and compares the maximum of `|S_i · R̂|` over all atoms against 0.1,
but the "mean" it compares against 0.1 is the sum of `|S_i · R̂|` over all
atoms divided by `count`, the number of rotating directed neighbor pairs —
not by the number of atoms. -/
theorem isConical_mean_divides_by_pair_count
    (c : Criteria) (spins : List Vec3) (st : ScanState) (p q : Bool)
    (hscan : conicalScan c spins = some st) (hcount : 0 < st.count)
    (hrot : 0 < dot3 st.rot st.rot)
    (h : isConical c spins = some (p, q)) :
    ∃ m, (absDots spins st.rot).max? = some m ∧
      (p = true ↔
        (((absDots spins st.rot).sum : ℚ) : ℝ) /
          ((st.count : ℝ) * Real.sqrt ((dot3 st.rot st.rot : ℚ) : ℝ)) < 1/10) ∧
      (q = true ↔ ((m : ℚ) : ℝ) / Real.sqrt ((dot3 st.rot st.rot : ℚ) : ℝ) < 1/10) := by
  have hc0 : st.count ≠ 0 := Nat.pos_iff_ne_zero.mp hcount
  rw [isConical, hscan] at h
  simp only [Option.bind_eq_bind, Option.some_bind] at h
  rw [if_neg hc0] at h
  cases hm : (absDots spins st.rot).max? with
  | none =>
    rw [hm] at h
    simp at h
  | some m =>
    rw [hm] at h
    simp only [Option.some_bind, Option.pure_def] at h
    have hps := Option.some.inj h
    have hp : divSqrtLtQ (absDots spins st.rot).sum
        ((st.count : ℚ) * st.count * dot3 st.rot st.rot) (1/10) = p :=
      congrArg Prod.fst hps
    have hq : divSqrtLtQ m (dot3 st.rot st.rot) (1/10) = q := congrArg Prod.snd hps
    have hsum0 : (0:ℚ) ≤ (absDots spins st.rot).sum := by
      apply list_sum_nonneg
      intro x hx
      rw [absDots] at hx
      obtain ⟨s, _, rfl⟩ := List.mem_map.mp hx
      exact abs_nonneg _
    have hm0 : (0:ℚ) ≤ m := by
      have hmem := List.max?_mem (fun a b => max_choice a b) hm
      rw [absDots] at hmem
      obtain ⟨s, _, rfl⟩ := List.mem_map.mp hmem
      exact abs_nonneg _
    have hcq : (0:ℚ) < (st.count : ℚ) := by exact_mod_cast hcount
    have ha1 : (0:ℚ) < (st.count : ℚ) * st.count * dot3 st.rot st.rot :=
      mul_pos (mul_pos hcq hcq) hrot
    have i1 := divSqrtLtQ_iff_real (absDots spins st.rot).sum
      ((st.count : ℚ) * st.count * dot3 st.rot st.rot) (1/10) hsum0 ha1 (by norm_num)
    have i2 := divSqrtLtQ_iff_real m (dot3 st.rot st.rot) (1/10) hm0 hrot (by norm_num)
    have hcast : (((st.count : ℚ) * st.count * dot3 st.rot st.rot : ℚ) : ℝ) =
        ((st.count : ℝ) * st.count) * ((dot3 st.rot st.rot : ℚ) : ℝ) := by
      push_cast
      ring
    have hsqrt : Real.sqrt (((st.count : ℚ) * st.count * dot3 st.rot st.rot : ℚ) : ℝ) =
        (st.count : ℝ) * Real.sqrt ((dot3 st.rot st.rot : ℚ) : ℝ) := by
      rw [hcast, Real.sqrt_mul (by positivity), Real.sqrt_mul_self (by positivity)]
    refine ⟨m, rfl, ?_, ?_⟩
    · rw [← hp, i1, hsqrt]
      norm_num
    · rw [← hq, i2]
      norm_num

/-- Witness for C1's amended theorem on the counterexample context, where
the scan yields the rotation vector `(0,0,1)` and `count = 1`. -/
theorem isConical_mean_divides_by_pair_count_witness :
    ∃ m, (absDots conicalSpinsC1 ((0:ℚ),(0:ℚ),(1:ℚ))).max? = some m ∧
      (false = true ↔
        (((absDots conicalSpinsC1 ((0:ℚ),(0:ℚ),(1:ℚ))).sum : ℚ) : ℝ) /
          (((1:ℕ) : ℝ) *
            Real.sqrt ((dot3 ((0:ℚ),(0:ℚ),(1:ℚ)) ((0:ℚ),(0:ℚ),(1:ℚ)) : ℚ) : ℝ)) < 1/10) ∧
      (false = true ↔ ((m : ℚ) : ℝ) /
        Real.sqrt ((dot3 ((0:ℚ),(0:ℚ),(1:ℚ)) ((0:ℚ),(0:ℚ),(1:ℚ)) : ℚ) : ℝ) < 1/10) :=
  isConical_mean_divides_by_pair_count conicalCtxC1 conicalSpinsC1
    ⟨((0:ℚ),(0:ℚ),(1:ℚ)), zero3, 1⟩ false false (by decide) (by decide) (by decide)
    (by decide)

section SweepContext

/-- A successful sublattice run implies a nonempty lattice. -/
theorem setSublatticeFrom_pos (n : ℕ) (vecinos : List (List ℕ)) (labels : List ℤ)
    (s : List ℤ) (h : setSublatticeFrom n vecinos labels = some s) : 0 < n := by
  rw [setSublatticeFrom] at h
  by_cases h1 : labels = []
  · rw [if_pos h1] at h; cases h
  · rw [if_neg h1] at h
    by_cases h2 : n = 0
    · rw [if_pos h2] at h; cases h
    · rw [if_neg h2] at h
      omega

/-- Once the classifier context is bound (`criteria.len ≠ 0`), a row of the
sweep leaves it untouched and classifies each cell's own spin array against
it. -/
theorem runRow_fixed (sf : Option StructFileData) (spf : ℚ → ℚ → Option (List Vec3))
    (f : Criteria → List Vec3 → Option Vec3) (crit : Criteria)
    (hc : crit.len ≠ 0) (v1 : ℚ) :
    ∀ (v2s : List ℚ) (res : Criteria × List Vec3),
      runRow sf spf f crit v1 v2s = some res →
      res.1 = crit ∧ res.2.length = v2s.length ∧
      ∀ (k : ℕ) (v2 : ℚ), v2s[k]? = some v2 →
        res.2[k]? = f crit (loadFiles sf (spf v1 v2)).spins
  | [], res, h => by
    have h' := Option.some.inj h
    subst h'
    refine ⟨rfl, rfl, ?_⟩
    intro k v2 hk
    simp at hk
  | v2 :: rest, res, h => by
    rw [runRow] at h
    cases hpc : processCell sf spf f crit v1 v2 with
    | none =>
      rw [hpc] at h
      simp at h
    | some pr =>
      obtain ⟨c1, col⟩ := pr
      have hpcU : processCell sf spf f crit v1 v2 = some (c1, col) := hpc
      rw [processCell, if_neg hc] at hpcU
      simp only [Option.pure_def, Option.bind_eq_bind, Option.some_bind] at hpcU
      cases hf : f crit (loadFiles sf (spf v1 v2)).spins with
      | none =>
        rw [hf] at hpcU
        simp at hpcU
      | some col' =>
        rw [hf] at hpcU
        simp only [Option.some_bind] at hpcU
        have hpr := Option.some.inj hpcU
        have hc1 : crit = c1 := congrArg Prod.fst hpr
        have hcol : col' = col := congrArg Prod.snd hpr
        rw [hpc] at h
        simp only [Option.bind_eq_bind, Option.some_bind] at h
        cases hrr : runRow sf spf f c1 v1 rest with
        | none =>
          rw [hrr] at h
          simp at h
        | some res2 =>
          obtain ⟨c2, cols⟩ := res2
          have hrr' : runRow sf spf f crit v1 rest = some (c2, cols) := by
            rw [hc1]; exact hrr
          obtain ⟨e1, e2, e3⟩ := runRow_fixed sf spf f crit hc v1 rest (c2, cols) hrr'
          rw [hrr] at h
          simp only [Option.some_bind, Option.pure_def] at h
          have hres := Option.some.inj h
          subst hres
          refine ⟨e1, by simpa using e2, ?_⟩
          intro k w hk
          cases k with
          | zero =>
            have hw : v2 = w := by simpa using hk
            subst hw
            simp only [List.getElem?_cons_zero]
            rw [hf, hcol]
          | succ k' =>
            have hk' : rest[k']? = some w := by simpa using hk
            simpa using e3 k' w hk'

/-- Once the classifier context is bound, the whole remaining sweep reuses
it unchanged. -/
theorem runGrid_fixed (sf : Option StructFileData) (spf : ℚ → ℚ → Option (List Vec3))
    (f : Criteria → List Vec3 → Option Vec3) (crit : Criteria)
    (hc : crit.len ≠ 0) (v2s : List ℚ) :
    ∀ (v1s : List ℚ) (res : Criteria × List (List Vec3)),
      runGrid sf spf f crit v1s v2s = some res →
      res.1 = crit ∧ res.2.length = v1s.length ∧
      ∀ (j : ℕ) (v1 : ℚ), v1s[j]? = some v1 →
        ∃ row : List Vec3, res.2[j]? = some row ∧ row.length = v2s.length ∧
          ∀ (k : ℕ) (v2 : ℚ), v2s[k]? = some v2 →
            row[k]? = f crit (loadFiles sf (spf v1 v2)).spins
  | [], res, h => by
    have h' := Option.some.inj h
    subst h'
    refine ⟨rfl, rfl, ?_⟩
    intro j v1 hj
    simp at hj
  | v1 :: rest, res, h => by
    rw [runGrid] at h
    cases hrr : runRow sf spf f crit v1 v2s with
    | none =>
      rw [hrr] at h
      simp at h
    | some rr =>
      obtain ⟨c1, row⟩ := rr
      obtain ⟨e1, e2, e3⟩ := runRow_fixed sf spf f crit hc v1 v2s (c1, row) hrr
      rw [hrr] at h
      simp only [Option.bind_eq_bind, Option.some_bind] at h
      cases hrg : runGrid sf spf f c1 rest v2s with
      | none =>
        rw [hrg] at h
        simp at h
      | some res2 =>
        obtain ⟨c2, rows⟩ := res2
        have hrg' : runGrid sf spf f crit rest v2s = some (c2, rows) := by
          rw [← e1]; exact hrg
        obtain ⟨g1, g2, g3⟩ := runGrid_fixed sf spf f crit hc v2s rest (c2, rows) hrg'
        rw [hrg] at h
        simp only [Option.some_bind, Option.pure_def] at h
        have hres := Option.some.inj h
        subst hres
        refine ⟨g1, by simpa using g2, ?_⟩
        intro j w hj
        cases j with
        | zero =>
          have hw : v1 = w := by simpa using hj
          subst hw
          exact ⟨row, by simp, e2, e3⟩
        | succ j' =>
          have hj' : rest[j']? = some w := by simpa using hj
          simpa using g3 j' w hj'

end SweepContext

/-- C6: if a sweep over a nonempty grid completes, the classifier context is
the one computed from the very first cell's lattice: its sublattice labeling
is computed there (and the lattice is nonempty), and every cell of the
resulting grid — including all later rows — is classified with that same
context applied to the cell's own spin array. -/
theorem setData_binds_context_once (sf : Option StructFileData)
    (spf : ℚ → ℚ → Option (List Vec3)) (f : Criteria → List Vec3 → Option Vec3)
    (a : ℚ) (as' : List ℚ) (b : ℚ) (bs : List ℚ) (grid : List (List Vec3))
    (h : setData sf spf f (a :: as') (b :: bs) = some grid) :
    ∃ sub1,
      setSublatticeFrom (loadFiles sf (spf a b)).n_atoms (loadFiles sf (spf a b)).vecinos
        (loadFiles sf (spf a b)).sublattice = some sub1 ∧
      0 < (loadFiles sf (spf a b)).n_atoms ∧
      ∀ (j : ℕ) (v1 : ℚ), (a :: as')[j]? = some v1 →
        ∀ (k : ℕ) (v2 : ℚ), (b :: bs)[k]? = some v2 →
        ∃ row : List Vec3, grid[j]? = some row ∧
          row[k]? = f ⟨(loadFiles sf (spf a b)).n_atoms, (loadFiles sf (spf a b)).vecinos,
            sub1, (loadFiles sf (spf a b)).position⟩
            (loadFiles sf (spf v1 v2)).spins := by
  rw [setData] at h
  cases hrg : runGrid sf spf f Criteria.init (a :: as') (b :: bs) with
  | none =>
    rw [hrg] at h
    cases h
  | some pres =>
    rw [hrg] at h
    obtain ⟨critF, grid'⟩ := pres
    simp only [Option.map_some'] at h
    have hgrid : grid' = grid := Option.some.inj h
    subst hgrid
    rw [runGrid] at hrg
    cases hrr : runRow sf spf f Criteria.init a (b :: bs) with
    | none =>
      rw [hrr] at hrg
      simp at hrg
    | some rr =>
      obtain ⟨c1, row0⟩ := rr
      have hrr0 := hrr
      rw [runRow] at hrr0
      cases hpc : processCell sf spf f Criteria.init a b with
      | none =>
        rw [hpc] at hrr0
        simp at hrr0
      | some pr =>
        obtain ⟨cA, colA⟩ := pr
        have hinit : Criteria.init.len = 0 := rfl
        have hpcU : processCell sf spf f Criteria.init a b = some (cA, colA) := hpc
        rw [processCell, if_pos hinit] at hpcU
        cases hss : setSublatticeFrom (loadFiles sf (spf a b)).n_atoms
            (loadFiles sf (spf a b)).vecinos (loadFiles sf (spf a b)).sublattice with
        | none =>
          rw [hss] at hpcU
          simp at hpcU
        | some sub1 =>
          rw [hss] at hpcU
          simp only [Option.bind_eq_bind, Option.some_bind, Option.pure_def] at hpcU
          set ctx1 : Criteria := ⟨(loadFiles sf (spf a b)).n_atoms,
            (loadFiles sf (spf a b)).vecinos, sub1, (loadFiles sf (spf a b)).position⟩
            with hctx1
          cases hf1 : f ctx1 (loadFiles sf (spf a b)).spins with
          | none =>
            rw [hf1] at hpcU
            simp at hpcU
          | some col1 =>
            rw [hf1] at hpcU
            simp only [Option.some_bind] at hpcU
            have hpr := Option.some.inj hpcU
            have hcA : ctx1 = cA := congrArg Prod.fst hpr
            have hcolA : col1 = colA := congrArg Prod.snd hpr
            have hnz : ctx1.len ≠ 0 := by
              have := setSublatticeFrom_pos _ _ _ _ hss
              rw [hctx1]
              simp only []
              omega
            rw [hpc] at hrr0
            simp only [Option.bind_eq_bind, Option.some_bind] at hrr0
            cases hrr1 : runRow sf spf f cA a bs with
            | none =>
              rw [hrr1] at hrr0
              simp at hrr0
            | some rr1 =>
              obtain ⟨cB, cols⟩ := rr1
              have hrr1' : runRow sf spf f ctx1 a bs = some (cB, cols) := by
                rw [hcA]; exact hrr1
              obtain ⟨e1, e2, e3⟩ := runRow_fixed sf spf f ctx1 hnz a bs (cB, cols) hrr1'
              rw [hrr1] at hrr0
              simp only [Option.some_bind, Option.pure_def] at hrr0
              have hrow := Option.some.inj hrr0
              have hc1 : cB = c1 := congrArg Prod.fst hrow
              have hrow0 : colA :: cols = row0 := congrArg Prod.snd hrow
              rw [hrr] at hrg
              simp only [Option.bind_eq_bind, Option.some_bind] at hrg
              cases hrg1 : runGrid sf spf f c1 as' (b :: bs) with
              | none =>
                rw [hrg1] at hrg
                simp at hrg
              | some res2 =>
                obtain ⟨cC, rows⟩ := res2
                have hc1' : c1 = ctx1 := by
                  rw [← hc1, ← e1]
                have hrg1' : runGrid sf spf f ctx1 as' (b :: bs) = some (cC, rows) := by
                  rw [← hc1']; exact hrg1
                obtain ⟨g1, g2, g3⟩ :=
                  runGrid_fixed sf spf f ctx1 hnz (b :: bs) as' (cC, rows) hrg1'
                rw [hrg1] at hrg
                simp only [Option.some_bind, Option.pure_def] at hrg
                have hfin := Option.some.inj hrg
                have hgrid2 : row0 :: rows = grid' := congrArg Prod.snd hfin
                refine ⟨sub1, rfl, setSublatticeFrom_pos _ _ _ _ hss, ?_⟩
                intro j v1 hj k v2 hk
                cases j with
                | zero =>
                  have hv1 : a = v1 := by simpa using hj
                  subst hv1
                  refine ⟨row0, by rw [← hgrid2]; simp, ?_⟩
                  cases k with
                  | zero =>
                    have hv2 : b = v2 := by simpa using hk
                    subst hv2
                    rw [← hrow0]
                    simp only [List.getElem?_cons_zero]
                    rw [hf1, hcolA]
                  | succ k' =>
                    have hk' : bs[k']? = some v2 := by simpa using hk
                    rw [← hrow0]
                    simpa using e3 k' v2 hk'
                | succ j' =>
                  have hj' : as'[j']? = some v1 := by simpa using hj
                  obtain ⟨row, hrowj, _, hcells⟩ := g3 j' v1 hj'
                  refine ⟨row, ?_, hcells k v2 hk⟩
                  rw [← hgrid2]
                  simpa using hrowj

/-- Witness for C6: a 1×2 sweep with one structure file and constant spin
files; both cells are classified with the context bound at the first cell. -/
theorem setData_binds_context_once_witness :
    setData (some ⟨1, [((0,0,0), [1,1,1])]⟩) (fun _ _ => some [(0,0,1)])
        dataFerroSpiralSkyrmions [0] [0, 1] = some [[cYellow, cYellow]] ∧
      ∃ sub1,
        setSublatticeFrom
          (loadFiles (some ⟨1, [((0,0,0), [1,1,1])]⟩) ((fun _ _ => some [(0,0,1)] :
            ℚ → ℚ → Option (List Vec3)) 0 0)).n_atoms
          (loadFiles (some ⟨1, [((0,0,0), [1,1,1])]⟩) ((fun _ _ => some [(0,0,1)] :
            ℚ → ℚ → Option (List Vec3)) 0 0)).vecinos
          (loadFiles (some ⟨1, [((0,0,0), [1,1,1])]⟩) ((fun _ _ => some [(0,0,1)] :
            ℚ → ℚ → Option (List Vec3)) 0 0)).sublattice = some sub1 ∧
        0 < (loadFiles (some ⟨1, [((0,0,0), [1,1,1])]⟩) ((fun _ _ => some [(0,0,1)] :
            ℚ → ℚ → Option (List Vec3)) 0 0)).n_atoms ∧
        ∀ (j : ℕ) (v1 : ℚ), (([0] : List ℚ))[j]? = some v1 →
          ∀ (k : ℕ) (v2 : ℚ), (([0, 1] : List ℚ))[k]? = some v2 →
          ∃ row : List Vec3, (([[cYellow, cYellow]] : List (List Vec3)))[j]? = some row ∧
            row[k]? = dataFerroSpiralSkyrmions
              ⟨(loadFiles (some ⟨1, [((0,0,0), [1,1,1])]⟩) ((fun _ _ => some [(0,0,1)] :
                  ℚ → ℚ → Option (List Vec3)) 0 0)).n_atoms,
                (loadFiles (some ⟨1, [((0,0,0), [1,1,1])]⟩) ((fun _ _ => some [(0,0,1)] :
                  ℚ → ℚ → Option (List Vec3)) 0 0)).vecinos,
                sub1,
                (loadFiles (some ⟨1, [((0,0,0), [1,1,1])]⟩) ((fun _ _ => some [(0,0,1)] :
                  ℚ → ℚ → Option (List Vec3)) 0 0)).position⟩
              (loadFiles (some ⟨1, [((0,0,0), [1,1,1])]⟩)
                ((fun _ _ => some [(0,0,1)] : ℚ → ℚ → Option (List Vec3)) v1 v2)).spins :=
  ⟨by decide,
    setData_binds_context_once (some ⟨1, [((0,0,0), [1,1,1])]⟩)
      (fun _ _ => some [(0,0,1)]) dataFerroSpiralSkyrmions 0 [] 0 [1]
      [[cYellow, cYellow]] (by decide)⟩

end Plotter
